import Mathlib

/-!
# spassgen: the password generator of `main.c`

A shallow embedding of `gen_pass` and `l_shift_array` and the properties of the
unbiased symbol extraction they implement.

Modelling conventions.

* A byte is a natural number below 256.  `rnd_bytes` is a list of bytes, the
  entropy device is the list of the bytes it can still deliver, the alphabet
  `symbols` is the list of the characters that precede the terminating NUL and the
  password is the list of the characters stored so far, so that
  `password_index` is the length of that list.
* `size_t` is 64 bits wide: products and the decrement of `avail_rnd_symbols` are
  taken modulo `2 ^ 64`.
* `malloc` and `fopen` are taken to succeed, and the freshly allocated `rnd_bytes`
  is taken to hold zeros.
* `fread` on a device that holds fewer bytes than requested delivers the bytes
  that are left, which is a short read.
* The loop of `gen_pass` need not end (see `gen_pass_loop`), so it carries an
  explicit iteration budget; the result `none` means that the budget ran out.
-/

namespace Spassgen

/-! ## Scalars computed at the head of `gen_pass` -/

/-- Number of values of a `size_t`. -/
def SIZE_MOD : Nat := 2 ^ 64

/-- Search for the least exponent `k`, starting from `k`, with `n ≤ 2 ^ k`. -/
def ceil_log2_from (n : Nat) : Nat → Nat → Nat
  | 0, k => k
  | fuel + 1, k => if n ≤ 2 ^ k then k else ceil_log2_from n fuel (k + 1)

/-- Line 158: `(size_t) ceill(log2l((long double) symbols_len))`, computed on
integers.  It agrees with the ceiling of the real logarithm for every
`symbols_len ≥ 1` (`bits_per_symbol_eq_ceil_logb`).  For `symbols_len = 0` the C
expression converts minus infinity to `size_t`, which C leaves undefined; the
value here is 0 and the statements about the empty alphabet take the width as a
parameter of `gen_pass_core` instead. -/
def bits_per_symbol (symbols_len : Nat) : Nat :=
  ceil_log2_from symbols_len symbols_len 0

/-- Lines 162 and 189: `(size_t) ceill((long double) needed_bits / 8.0)`.  A
`long double` holds every 64-bit integer exactly, so this is the integer
ceiling of `needed_bits / 8`. -/
def bytes_for_bits (needed_bits : Nat) : Nat :=
  (needed_bits + 7) / 8

/-- Lines 165 and 238: `unsigned char bitmask = ~(0xff >> bits)`, the low byte of
the complement. -/
def bitmask (bits : Nat) : Nat :=
  255 - (255 >>> bits)

/-! ## `l_shift_array` -/

/-- One pass of the `for` loop of `l_shift_array` (lines 241 to 256) at index `i`:
the byte at `i` is shifted left, truncated to a byte, joined with the leading bits
of its right neighbour when there is one, and stored back. -/
def l_shift_array_step (arr : List Nat) (arr_len bits i : Nat) : List Nat :=
  let c := (arr.getD i 0 <<< bits) % 256
  let c :=
    if i + 1 < arr_len then
      let c2 := arr.getD (i + 1) 0
      let c2 := c2 &&& bitmask bits
      let c2 := c2 >>> (8 - bits)
      c ||| c2
    else c
  arr.set i c

/-- The `for` loop of `l_shift_array` from index `i` with `n` passes to go. -/
def l_shift_array_from (arr_len bits : Nat) : Nat → Nat → List Nat → List Nat
  | 0, _, arr => arr
  | n + 1, i, arr => l_shift_array_from arr_len bits n (i + 1) (l_shift_array_step arr arr_len bits i)

/-- Lines 233 to 257: `l_shift_array(arr, arr_len, bits)`, returning the array it
leaves behind. -/
def l_shift_array (arr : List Nat) (arr_len bits : Nat) : List Nat :=
  l_shift_array_from arr_len bits arr_len 0 arr

/-- The bytes `l_shift_array` leaves behind, computed from left to right on the
original bytes: each byte shifted left and truncated, joined with the leading
bits of its right neighbour when there is one. -/
def shifted (bits : Nat) : List Nat → List Nat
  | [] => []
  | [c] => [(c <<< bits) % 256]
  | c :: c2 :: rest =>
    ((c <<< bits) % 256 ||| ((c2 &&& bitmask bits) >>> (8 - bits))) :: shifted bits (c2 :: rest)

/-- The content of a buffer read as one big-endian bit string: the first byte is
the most significant. -/
def be_value : List Nat → Nat
  | [] => 0
  | b :: rest => b * 256 ^ rest.length + be_value rest

/-- The bits `[j * W, (j + 1) * W)` of a sequence of bytes read as one big-endian
bit string, as a right-aligned value: the `j`-th window of width `W`. -/
def window (W : Nat) (bytes : List Nat) (j : Nat) : Nat :=
  (be_value bytes / 2 ^ (8 * bytes.length - (j + 1) * W)) % 2 ^ W

/-! ## The loop of `gen_pass` -/

/-- The variables of `gen_pass` that change in its loop.  `requests` and `draws`
are observations, not variables of the program: the byte counts passed to
`fread` and the values of `sym_index`, both in order of occurrence. -/
structure State where
  password : List Char
  avail_rnd_symbols : Nat
  rnd_bytes : List Nat
  rnd_dev : List Nat
  requests : List Nat
  draws : List Nat
  deriving DecidableEq

/-- The ways the loop of `gen_pass` is left, each with the state at that moment:
the password is complete, `fread` was short (`goto fail`, the function returns
`NULL`), or the assertion of line 190 failed. -/
inductive Exit where
  | returned (s : State)
  | null (s : State)
  | aborted (s : State)
  deriving DecidableEq

/-- Lines 187 to 197: the refill of `rnd_bytes` when no symbol is available. -/
def refill (password_len bits_per_symbol rnd_bytes_len : Nat) (s : State) : Except Exit State :=
  if s.avail_rnd_symbols = 0 then
    let needed_bits := (bits_per_symbol * (password_len - s.password.length)) % SIZE_MOD
    let needed_bytes := bytes_for_bits needed_bits
    if needed_bytes ≤ rnd_bytes_len then
      let got := s.rnd_dev.take needed_bytes
      let s1 : State :=
        { s with
          rnd_bytes := got ++ s.rnd_bytes.drop got.length
          rnd_dev := s.rnd_dev.drop needed_bytes
          requests := s.requests ++ [needed_bytes] }
      if got.length < needed_bytes then
        .error (.null s1)
      else
        .ok { s1 with avail_rnd_symbols := needed_bytes }
    else
      .error (.aborted s)
  else
    .ok s

/-- Lines 199 to 201: the candidate index read from the head of `rnd_bytes`.  The
mask is at most 255, so the conversions to `unsigned char` change nothing and a
sign extension of `rnd_bytes[0]`, which is a `char`, is masked away.  The head of
an empty buffer, which C leaves undefined, is read as 0. -/
def sym_index (bits_per_symbol : Nat) (rnd_bytes : List Nat) : Nat :=
  (rnd_bytes.headD 0 &&& bitmask bits_per_symbol) >>> (8 - bits_per_symbol)

/-- Lines 198 to 212: one candidate is read, the buffer is shifted, and the
candidate is stored as a symbol of the password when it is in range. -/
def draw (symbols : List Char) (bits_per_symbol rnd_bytes_len : Nat) (s : State) : State :=
  let v := sym_index bits_per_symbol s.rnd_bytes
  let s1 : State :=
    { s with
      rnd_bytes := l_shift_array s.rnd_bytes rnd_bytes_len bits_per_symbol
      avail_rnd_symbols := (s.avail_rnd_symbols + SIZE_MOD - 1) % SIZE_MOD
      draws := s.draws ++ [v] }
  if h : v < symbols.length then
    { s1 with password := s1.password ++ [symbols[v]] }
  else
    s1

/-- Lines 186 to 212: the body of the `while` loop. -/
def gen_pass_body (symbols : List Char) (password_len bits_per_symbol rnd_bytes_len : Nat)
    (s : State) : Except Exit State :=
  match refill password_len bits_per_symbol rnd_bytes_len s with
  | .error e => .error e
  | .ok s1 => .ok (draw symbols bits_per_symbol rnd_bytes_len s1)

/-- Lines 185 to 215: the `while` loop, run for at most `fuel` passes.  `none`
means that the loop was still running when the budget ran out. -/
def gen_pass_loop (symbols : List Char) (password_len bits_per_symbol rnd_bytes_len : Nat) :
    Nat → State → Option Exit
  | 0, s => if s.password.length < password_len then none else some (.returned s)
  | fuel + 1, s =>
    if s.password.length < password_len then
      match gen_pass_body symbols password_len bits_per_symbol rnd_bytes_len s with
      | .error e => some e
      | .ok s1 => gen_pass_loop symbols password_len bits_per_symbol rnd_bytes_len fuel s1
    else some (.returned s)

/-- Lines 160 to 184: the state in which the loop is entered. -/
def initial_state (rnd_dev : List Nat) (rnd_bytes_len : Nat) : State :=
  { password := []
    avail_rnd_symbols := 0
    rnd_bytes := List.replicate rnd_bytes_len 0
    rnd_dev := rnd_dev
    requests := []
    draws := [] }

/-- Lines 159 to 215 of `gen_pass`, with the value of `bits_per_symbol` given. -/
def gen_pass_core (bits_per_symbol : Nat) (fuel : Nat) (rnd_dev : List Nat) (password_len : Nat)
    (symbols : List Char) : Option Exit :=
  let needed_bits := (password_len * bits_per_symbol) % SIZE_MOD
  let rnd_bytes_len := bytes_for_bits needed_bits
  gen_pass_loop symbols password_len bits_per_symbol rnd_bytes_len fuel
    (initial_state rnd_dev rnd_bytes_len)

/-- Lines 147 to 230: `gen_pass(rnd_dev, password_len, symbols)` run for at most
`fuel` passes of its loop. -/
def gen_pass (fuel : Nat) (rnd_dev : List Nat) (password_len : Nat) (symbols : List Char) :
    Option Exit :=
  gen_pass_core (bits_per_symbol symbols.length) fuel rnd_dev password_len symbols

/-- The string `gen_pass` returns: the password when the loop completed it, and
nothing (`NULL`) on every other exit. -/
def Exit.password : Exit → Option (List Char)
  | .returned s => some s.password
  | .null _ => none
  | .aborted _ => none

/-- The symbols selected by a sequence of candidate indices: the candidates in
the range of the alphabet, each replaced by the symbol it indexes. -/
def accepted (symbols : List Char) (draws : List Nat) : List Char :=
  draws.filterMap (fun v => symbols[v]?)

/-- The state in which the loop was left. -/
def Exit.state : Exit → State
  | .returned s => s
  | .null s => s
  | .aborted s => s


/-! ## Lemmas on the loop -/

section loop
variable (symbols : List Char) (L bps len : Nat)

theorem gen_pass_loop_exit (P : State → Prop) (Q : Exit → Prop)
    (hok : ∀ s s1, s.password.length < L → P s →
      gen_pass_body symbols L bps len s = .ok s1 → P s1)
    (herr : ∀ s e, s.password.length < L → P s →
      gen_pass_body symbols L bps len s = .error e → Q e)
    (hret : ∀ s, ¬ s.password.length < L → P s → Q (.returned s)) :
    ∀ fuel s e, P s → gen_pass_loop symbols L bps len fuel s = some e → Q e := by
  intro fuel
  induction fuel with
  | zero =>
    intro s e hP h
    by_cases hc : s.password.length < L
    · simp [gen_pass_loop, hc] at h
    · simp only [gen_pass_loop, if_neg hc, Option.some.injEq] at h
      subst h
      exact hret s hc hP
  | succ fuel ih =>
    intro s e hP h
    by_cases hc : s.password.length < L
    · simp only [gen_pass_loop, if_pos hc] at h
      cases hb : gen_pass_body symbols L bps len s with
      | error e1 =>
        rw [hb] at h
        simp only [Option.some.injEq] at h
        subst h
        exact herr s e1 hc hP hb
      | ok s1 =>
        rw [hb] at h
        exact ih s1 e (hok s s1 hc hP hb) h
    · simp only [gen_pass_loop, if_neg hc, Option.some.injEq] at h
      subst h
      exact hret s hc hP

theorem refill_ok {s s1 : State} (h : refill L bps len s = .ok s1) :
    s1.password = s.password ∧ s1.draws = s.draws := by
  unfold refill at h
  split at h
  · simp only at h
    split at h
    · split at h
      · cases h
      · cases h; exact ⟨rfl, rfl⟩
    · cases h
  · cases h; exact ⟨rfl, rfl⟩

theorem refill_error {s : State} {e : Exit} (h : refill L bps len s = .error e) :
    e.state.password = s.password ∧ e.state.draws = s.draws ∧ e.password = none := by
  unfold refill at h
  split at h
  · simp only at h
    split at h
    · split at h
      · cases h; exact ⟨rfl, rfl, rfl⟩
      · cases h
    · cases h; exact ⟨rfl, rfl, rfl⟩
  · cases h

theorem draw_password (s : State) :
    (draw symbols bps len s).password
      = s.password ++ (symbols[sym_index bps s.rnd_bytes]?).toList := by
  unfold draw
  by_cases h : sym_index bps s.rnd_bytes < symbols.length
  · simp [h]
  · have hn : symbols[sym_index bps s.rnd_bytes]? = none :=
      List.getElem?_eq_none (Nat.le_of_not_lt h)
    simp [h, hn]

theorem draw_draws (s : State) :
    (draw symbols bps len s).draws = s.draws ++ [sym_index bps s.rnd_bytes] := by
  unfold draw
  by_cases h : sym_index bps s.rnd_bytes < symbols.length
  · simp [h]
  · simp [h]

theorem gen_pass_body_ok {s s1 : State} (h : gen_pass_body symbols L bps len s = .ok s1) :
    ∃ sr, refill L bps len s = .ok sr ∧ s1 = draw symbols bps len sr := by
  unfold gen_pass_body at h
  cases hr : refill L bps len s with
  | error e => rw [hr] at h; cases h
  | ok sr => rw [hr] at h; cases h; exact ⟨sr, rfl, rfl⟩

theorem gen_pass_body_error {s : State} {e : Exit}
    (h : gen_pass_body symbols L bps len s = .error e) : refill L bps len s = .error e := by
  unfold gen_pass_body at h
  cases hr : refill L bps len s with
  | error e1 => rw [hr] at h; cases h; rfl
  | ok sr => rw [hr] at h; cases h

theorem accepted_append (draws : List Nat) (v : Nat) :
    accepted symbols (draws ++ [v]) = accepted symbols draws ++ (symbols[v]?).toList := by
  unfold accepted
  rw [List.filterMap_append]
  cases h : symbols[v]? <;> simp [List.filterMap_cons, h]

/-- The selection invariant of the loop and what it gives at each exit. -/
theorem gen_pass_loop_selection (fuel : Nat) (s : State) (e : Exit)
    (hinv : s.password = accepted symbols s.draws) (hlen : s.password.length ≤ L)
    (h : gen_pass_loop symbols L bps len fuel s = some e) :
    e.state.password = accepted symbols e.state.draws ∧
      (e.password = none → e.state.password.length < L) ∧
      (∀ pw, e.password = some pw → pw = e.state.password ∧ pw.length = L) := by
  refine gen_pass_loop_exit symbols L bps len
    (fun s => s.password = accepted symbols s.draws ∧ s.password.length ≤ L)
    (fun e => e.state.password = accepted symbols e.state.draws ∧
      (e.password = none → e.state.password.length < L) ∧
      (∀ pw, e.password = some pw → pw = e.state.password ∧ pw.length = L))
    ?_ ?_ ?_ fuel s e ⟨hinv, hlen⟩ h
  · intro s s1 hc hP hb
    obtain ⟨sr, hr, rfl⟩ := gen_pass_body_ok symbols L bps len hb
    obtain ⟨hp, hd⟩ := refill_ok L bps len hr
    constructor
    · rw [draw_password, draw_draws, accepted_append, hp, hd, hP.1]
    · rw [draw_password, hp, List.length_append]
      have : (symbols[sym_index bps sr.rnd_bytes]?).toList.length ≤ 1 := by
        cases symbols[sym_index bps sr.rnd_bytes]? <;> simp
      omega
  · intro s e hc hP hb
    obtain ⟨hp, hd, hn⟩ := refill_error L bps len (gen_pass_body_error symbols L bps len hb)
    refine ⟨by rw [hp, hd, hP.1], fun _ => by rw [hp]; exact hc, ?_⟩
    intro pw hpw
    rw [hn] at hpw
    cases hpw
  · intro s hc hP
    refine ⟨hP.1, ?_, ?_⟩
    · intro hn
      cases hn
    · intro pw hpw
      cases hpw
      exact ⟨rfl, Nat.le_antisymm hP.2 (Nat.le_of_not_lt hc)⟩

theorem gen_pass_selection {fuel : Nat} {rnd_dev : List Nat} {password_len : Nat}
    {symbols : List Char} {e : Exit} (h : gen_pass fuel rnd_dev password_len symbols = some e) :
    e.state.password = accepted symbols e.state.draws ∧
      (e.password = none → e.state.password.length < password_len) ∧
      (∀ pw, e.password = some pw → pw = e.state.password ∧ pw.length = password_len) :=
  gen_pass_loop_selection symbols password_len _ _ fuel _ e rfl (Nat.zero_le _) h

theorem accepted_eq_filter (draws : List Nat) :
    accepted symbols draws
      = (draws.filter (fun v => decide (v < symbols.length))).filterMap (fun v => symbols[v]?) ∧
    (accepted symbols draws).length
      = (draws.filter (fun v => decide (v < symbols.length))).length := by
  induction draws with
  | nil => exact ⟨rfl, rfl⟩
  | cons v draws ih =>
    unfold accepted at ih ⊢
    by_cases hv : v < symbols.length
    · have hs : symbols[v]? = some symbols[v] := List.getElem?_eq_getElem hv
      simp only [List.filterMap_cons, hs, List.filter_cons, hv, decide_True, if_true,
        List.length_cons]
      exact ⟨by rw [ih.1], by rw [ih.2]⟩
    · have hn : symbols[v]? = none := List.getElem?_eq_none (Nat.le_of_not_lt hv)
      simp only [List.filterMap_cons, hn, List.filter_cons, hv, decide_False]
      exact ih

theorem mem_accepted {c : Char} {draws : List Nat} (h : c ∈ accepted symbols draws) :
    ∃ v, ∃ hv : v < symbols.length, v ∈ draws ∧ c = symbols[v] := by
  unfold accepted at h
  obtain ⟨v, hv, hs⟩ := List.mem_filterMap.1 h
  obtain ⟨hlt, heq⟩ := List.getElem?_eq_some.1 hs
  exact ⟨v, hlt, hv, heq.symm⟩

theorem refill_of_avail_ne_zero {s : State} (h : s.avail_rnd_symbols ≠ 0) :
    refill L bps len s = .ok s := by
  unfold refill
  rw [if_neg h]

theorem refill_of_short {s : State} (havail : s.avail_rnd_symbols = 0)
    (hassert : bytes_for_bits ((bps * (L - s.password.length)) % SIZE_MOD) ≤ len)
    (hshort : (s.rnd_dev.take
        (bytes_for_bits ((bps * (L - s.password.length)) % SIZE_MOD))).length
      < bytes_for_bits ((bps * (L - s.password.length)) % SIZE_MOD)) :
    ∃ s1, refill L bps len s = .error (.null s1) ∧ s1.password = s.password := by
  unfold refill
  simp only [if_pos havail, if_pos hassert, if_pos hshort]
  exact ⟨_, rfl, rfl⟩

theorem refill_supply {s s1 : State} (h : refill L bps len s = .ok s1) :
    s1.requests.sum + s1.rnd_dev.length = s.requests.sum + s.rnd_dev.length := by
  unfold refill at h
  split at h
  · simp only at h
    split at h
    · split at h
      · cases h
      · rename_i hfull
        cases h
        simp only [List.length_take, not_lt] at hfull
        simp only [List.sum_append, List.sum_cons, List.sum_nil, List.length_drop]
        omega
    · cases h
  · cases h; rfl

theorem draw_supply (s : State) :
    (draw symbols bps len s).requests = s.requests ∧
      (draw symbols bps len s).rnd_dev = s.rnd_dev := by
  unfold draw
  by_cases h : sym_index bps s.rnd_bytes < symbols.length
  · simp [h]
  · simp [h]

/-- A run that ends with a password has been served every byte it asked for. -/
theorem gen_pass_loop_supply (n fuel : Nat) (s : State) (e : Exit)
    (hinv : s.requests.sum + s.rnd_dev.length = n)
    (h : gen_pass_loop symbols L bps len fuel s = some e) :
    ∀ pw, e.password = some pw → e.state.requests.sum ≤ n := by
  refine gen_pass_loop_exit symbols L bps len
    (fun s => s.requests.sum + s.rnd_dev.length = n)
    (fun e => ∀ pw, e.password = some pw → e.state.requests.sum ≤ n)
    ?_ ?_ ?_ fuel s e hinv h
  · intro s s1 _ hP hb
    obtain ⟨sr, hr, rfl⟩ := gen_pass_body_ok symbols L bps len hb
    have h1 := refill_supply L bps len hr
    obtain ⟨h2, h3⟩ := draw_supply symbols bps len sr
    show (draw symbols bps len sr).requests.sum + (draw symbols bps len sr).rnd_dev.length = n
    rw [h2, h3, h1]
    exact hP
  · intro s e _ _ hb pw hpw
    rw [(refill_error L bps len (gen_pass_body_error symbols L bps len hb)).2.2] at hpw
    cases hpw
  · intro s _ hP pw _
    show s.requests.sum ≤ n
    omega

theorem gen_pass_body_of_avail_ne_zero {s : State} (h : s.avail_rnd_symbols ≠ 0) :
    gen_pass_body symbols L bps len s = .ok (draw symbols bps len s) := by
  unfold gen_pass_body
  rw [refill_of_avail_ne_zero L bps len h]

theorem gen_pass_loop_done (fuel : Nat) {s : State} (h : ¬ s.password.length < L) :
    gen_pass_loop symbols L bps len fuel s = some (.returned s) := by
  cases fuel <;> simp [gen_pass_loop, h]

/-- A run that has ended keeps its result when the budget of passes is raised. -/
theorem gen_pass_loop_mono (k : Nat) : ∀ (fuel : Nat) (s : State) (e : Exit),
    gen_pass_loop symbols L bps len fuel s = some e →
    gen_pass_loop symbols L bps len (fuel + k) s = some e := by
  intro fuel
  induction fuel with
  | zero =>
    intro s e h
    by_cases hc : s.password.length < L
    · simp [gen_pass_loop, hc] at h
    · rw [gen_pass_loop_done symbols L bps len 0 hc] at h
      rw [gen_pass_loop_done symbols L bps len (0 + k) hc]
      exact h
  | succ fuel ih =>
    intro s e h
    by_cases hc : s.password.length < L
    · rw [Nat.add_right_comm]
      simp only [gen_pass_loop, if_pos hc] at h ⊢
      cases hb : gen_pass_body symbols L bps len s with
      | error e1 =>
        rw [hb] at h
        exact h
      | ok s1 =>
        rw [hb] at h
        exact ih s1 e h
    · rw [gen_pass_loop_done symbols L bps len (fuel + 1) hc] at h
      rw [gen_pass_loop_done symbols L bps len (fuel + 1 + k) hc]
      exact h

end loop

/-! ## Lemmas on the bit operations -/

theorem l_shift_array_from_eq (bits : Nat) (suf : List Nat) : ∀ pre : List Nat,
    l_shift_array_from (pre.length + suf.length) bits suf.length pre.length (pre ++ suf)
      = pre ++ shifted bits suf := by
  induction suf with
  | nil => intro pre; simp [l_shift_array_from, shifted]
  | cons c suf ih =>
    intro pre
    cases suf with
    | nil =>
      simp [l_shift_array_from, l_shift_array_step, shifted, List.getD_eq_getElem?_getD]
    | cons c2 rest =>
      have hstep : l_shift_array_step (pre ++ c :: c2 :: rest)
          (pre.length + (c :: c2 :: rest).length) bits pre.length
          = (pre ++ [(c <<< bits) % 256 ||| ((c2 &&& bitmask bits) >>> (8 - bits))])
              ++ c2 :: rest := by
        have h0 : (pre ++ c :: c2 :: rest).getD pre.length 0 = c := by
          rw [List.getD_eq_getElem?_getD, List.getElem?_append_right (Nat.le_refl _)]
          simp
        have h1 : (pre ++ c :: c2 :: rest).getD (pre.length + 1) 0 = c2 := by
          rw [List.getD_eq_getElem?_getD, List.getElem?_append_right (by omega)]
          simp
        have hlt : pre.length + 1 < pre.length + (c :: c2 :: rest).length := by
          simp only [List.length_cons]; omega
        simp only [l_shift_array_step, h0, h1, if_pos hlt]
        simp
      have hlen : pre.length + (c :: c2 :: rest).length
          = (pre ++ [(c <<< bits) % 256 ||| ((c2 &&& bitmask bits) >>> (8 - bits))]).length
            + (c2 :: rest).length := by
        simp only [List.length_append, List.length_cons, List.length_nil]; omega
      have hi : pre.length + 1
          = (pre ++ [(c <<< bits) % 256 ||| ((c2 &&& bitmask bits) >>> (8 - bits))]).length := by
        simp
      show l_shift_array_from _ bits (c2 :: rest).length (pre.length + 1)
          (l_shift_array_step _ _ bits pre.length) = _
      rw [hstep, hlen, hi, ih]
      simp [shifted]

theorem l_shift_array_eq_shifted (bits : Nat) (arr : List Nat) :
    l_shift_array arr arr.length bits = shifted bits arr := by
  have := l_shift_array_from_eq bits arr []
  simpa [l_shift_array] using this

set_option maxRecDepth 100000 in
/-- Masking a byte with `bitmask w` and shifting it right by `8 - w` gives its
quotient by `2 ^ (8 - w)`, checked on every byte and every width up to 8. -/
theorem mask_shift_eq_div : ∀ w, w < 9 → ∀ c, c < 256 → 1 ≤ w →
    (c &&& bitmask w) >>> (8 - w) = c / 2 ^ (8 - w) ∧ (c &&& bitmask w) >>> (8 - w) < 2 ^ w := by
  decide

theorem two_pow_split {W : Nat} (hW8 : W ≤ 8) : 256 = 2 ^ (8 - W) * 2 ^ W := by
  rw [← pow_add, Nat.sub_add_cancel hW8]
  rfl

theorem shl_mod_byte (W : Nat) (hW8 : W ≤ 8) (c : Nat) :
    (c <<< W) % 256 = 2 ^ W * (c % 2 ^ (8 - W)) := by
  rw [Nat.shiftLeft_eq, two_pow_split hW8, Nat.mul_mod_mul_right, Nat.mul_comm]

theorem joined_byte (W : Nat) (hW1 : 1 ≤ W) (hW8 : W ≤ 8) (c c2 : Nat) (hc2 : c2 < 256) :
    (c <<< W) % 256 ||| ((c2 &&& bitmask W) >>> (8 - W))
      = 2 ^ W * (c % 2 ^ (8 - W)) + c2 / 2 ^ (8 - W) := by
  obtain ⟨h1, h2⟩ := mask_shift_eq_div W (by omega) c2 hc2 hW1
  rw [shl_mod_byte W hW8, ← h1, Nat.mul_add_lt_is_or h2]

theorem byte_split (W : Nat) (hW8 : W ≤ 8) (c : Nat) :
    c * 2 ^ W = 2 ^ W * (c % 2 ^ (8 - W)) + 256 * (c / 2 ^ (8 - W)) := by
  have h := Nat.mod_add_div c (2 ^ (8 - W))
  have h256 := two_pow_split hW8
  calc c * 2 ^ W = (c % 2 ^ (8 - W) + 2 ^ (8 - W) * (c / 2 ^ (8 - W))) * 2 ^ W := by rw [h]
    _ = 2 ^ W * (c % 2 ^ (8 - W)) + (2 ^ (8 - W) * 2 ^ W) * (c / 2 ^ (8 - W)) := by ring
    _ = _ := by rw [← h256]

theorem shifted_length (W : Nat) : ∀ l : List Nat, (shifted W l).length = l.length
  | [] => rfl
  | [_] => rfl
  | _ :: c2 :: rest => by
    simp only [shifted, List.length_cons, shifted_length W (c2 :: rest)]

theorem be_value_shifted (W : Nat) (hW1 : 1 ≤ W) (hW8 : W ≤ 8) : ∀ l : List Nat,
    (∀ b ∈ l, b < 256) →
    be_value (shifted W l) + (l.headD 0 / 2 ^ (8 - W)) * 256 ^ l.length = be_value l * 2 ^ W
  | [], _ => by simp [shifted, be_value]
  | [c], _ => by
    simp only [shifted, be_value, List.headD_cons, List.length_cons, List.length_nil,
      shl_mod_byte W hW8, pow_zero, mul_one, add_zero, zero_add, pow_one]
    have := byte_split W hW8 c
    omega
  | c :: c2 :: rest, hb => by
    have ih := be_value_shifted W hW1 hW8 (c2 :: rest)
      (fun b hb1 => hb b (List.mem_cons_of_mem _ hb1))
    have hc2 : c2 < 256 := hb c2 (by simp)
    have hs := byte_split W hW8 c
    simp only [List.headD_cons] at ih
    simp only [shifted, be_value, List.headD_cons, shifted_length, List.length_cons,
      joined_byte W hW1 hW8 c c2 hc2] at ih ⊢
    generalize 2 ^ W * (c % 2 ^ (8 - W)) = x at hs ⊢
    generalize c2 / 2 ^ (8 - W) = y2 at ih ⊢
    generalize c / 2 ^ (8 - W) = q at hs ⊢
    generalize be_value (shifted W (c2 :: rest)) = bs at ih ⊢
    generalize c2 * 256 ^ rest.length + be_value rest = bv at ih ⊢
    generalize 2 ^ W = t at hs ih ⊢
    simp only [pow_succ] at ih ⊢
    generalize 256 ^ rest.length = P at ih ⊢
    have e1 : (c * (P * 256) + bv) * t = (c * t) * (P * 256) + bv * t := by ring
    rw [e1, hs, ← ih]
    ring

theorem shifted_bytes (W : Nat) (hW1 : 1 ≤ W) (hW8 : W ≤ 8) : ∀ l : List Nat,
    (∀ b ∈ l, b < 256) → ∀ b ∈ shifted W l, b < 256
  | [], _ => by simp [shifted]
  | [c], _ => by
    intro b hb
    simp only [shifted, List.mem_singleton] at hb
    subst hb
    exact Nat.mod_lt _ (by norm_num)
  | c :: c2 :: rest, hl => by
    intro b hb
    simp only [shifted, List.mem_cons] at hb
    rcases hb with hb | hb
    · have hc2 : c2 < 256 := hl c2 (by simp)
      obtain ⟨h1, h2⟩ := mask_shift_eq_div W (by omega) c2 hc2 hW1
      rw [h1] at h2
      rw [joined_byte W hW1 hW8 c c2 hc2] at hb
      have ha : c % 2 ^ (8 - W) < 2 ^ (8 - W) := Nat.mod_lt _ (Nat.two_pow_pos _)
      have h256 := two_pow_split hW8
      have hmul : 2 ^ W * (c % 2 ^ (8 - W) + 1) ≤ 2 ^ W * 2 ^ (8 - W) :=
        Nat.mul_le_mul_left _ ha
      rw [Nat.mul_comm (2 ^ W) (2 ^ (8 - W)), ← h256, Nat.mul_add, Nat.mul_one] at hmul
      omega
    · exact shifted_bytes W hW1 hW8 (c2 :: rest)
        (fun b1 hb1 => hl b1 (List.mem_cons_of_mem _ hb1)) b
        (by simpa [List.mem_cons] using hb)

theorem be_value_lt : ∀ l : List Nat, (∀ b ∈ l, b < 256) → be_value l < 256 ^ l.length
  | [], _ => by simp [be_value]
  | b :: rest, hl => by
    have ih := be_value_lt rest (fun b1 hb1 => hl b1 (List.mem_cons_of_mem _ hb1))
    have hb : b < 256 := hl b (by simp)
    simp only [be_value, List.length_cons, pow_succ]
    have : (b + 1) * 256 ^ rest.length ≤ 256 * 256 ^ rest.length :=
      Nat.mul_le_mul_right _ hb
    rw [Nat.add_mul, Nat.one_mul] at this
    omega

theorem shifted_getLast (W : Nat) (hW8 : W ≤ 8) : ∀ (l : List Nat) (last : Nat),
    (shifted W l).getLast? = some last → last % 2 ^ W = 0
  | [], last, h => by simp [shifted] at h
  | [c], last, h => by
    simp only [shifted, List.getLast?_singleton, Option.some.injEq] at h
    rw [← h, shl_mod_byte W hW8, Nat.mul_mod_right]
  | c :: c2 :: rest, last, h => by
    apply shifted_getLast W hW8 (c2 :: rest) last
    cases rest with
    | nil => simpa [shifted] using h
    | cons c3 r =>
      simp only [shifted, List.getLast?_cons_cons] at h ⊢
      exact h

theorem shifted_eight : ∀ l : List Nat, l ≠ [] → (∀ b ∈ l, b < 256) →
    shifted 8 l = l.tail ++ [0]
  | [], h, _ => absurd rfl h
  | [c], _, _ => by
    simp [shifted, shl_mod_byte 8 (Nat.le_refl 8), Nat.mod_one]
  | c :: c2 :: rest, _, hl => by
    have ih := shifted_eight (c2 :: rest) (by simp)
      (fun b1 hb1 => hl b1 (List.mem_cons_of_mem _ hb1))
    have hc2 : c2 < 256 := hl c2 (by simp)
    simp only [shifted, joined_byte 8 (by decide) (Nat.le_refl 8) c c2 hc2, ih]
    simp [Nat.mod_one]

/-! ## Lemmas on `bits_per_symbol` -/

theorem ceil_log2_from_spec (n : Nat) : ∀ fuel k, (∀ j, j < k → 2 ^ j < n) → n ≤ 2 ^ (k + fuel) →
    n ≤ 2 ^ ceil_log2_from n fuel k ∧ ∀ j, j < ceil_log2_from n fuel k → 2 ^ j < n := by
  intro fuel
  induction fuel with
  | zero =>
    intro k hk hn
    exact ⟨hn, hk⟩
  | succ fuel ih =>
    intro k hk hn
    unfold ceil_log2_from
    by_cases h : n ≤ 2 ^ k
    · rw [if_pos h]
      exact ⟨h, hk⟩
    · rw [if_neg h]
      apply ih (k + 1)
      · intro j hj
        rcases Nat.lt_succ_iff_lt_or_eq.1 hj with hlt | heq
        · exact hk j hlt
        · rw [heq]; exact Nat.lt_of_not_le h
      · rw [Nat.add_assoc, Nat.add_comm 1 fuel]
        exact hn

theorem bits_per_symbol_spec (n : Nat) :
    n ≤ 2 ^ bits_per_symbol n ∧ ∀ j, j < bits_per_symbol n → 2 ^ j < n := by
  apply ceil_log2_from_spec n n 0
  · intro j hj
    exact absurd hj (Nat.not_lt_zero j)
  · rw [Nat.zero_add]
    exact Nat.le_of_lt (Nat.lt_two_pow n)

theorem bits_per_symbol_eq_clog (n : Nat) : bits_per_symbol n = Nat.clog 2 n := by
  obtain ⟨h1, h2⟩ := bits_per_symbol_spec n
  apply Nat.le_antisymm
  · by_contra hlt
    have := h2 (Nat.clog 2 n) (Nat.lt_of_not_le hlt)
    exact absurd (Nat.le_pow_clog (by decide) n) (Nat.not_le_of_lt this)
  · exact (Nat.le_pow_iff_clog_le (by decide)).1 h1

/-- The integer computation of `bits_per_symbol` is the expression of line 158
read on the reals: the ceiling of the logarithm to base 2. -/
theorem bits_per_symbol_eq_ceil_logb (n : Nat) :
    (bits_per_symbol n : Int) = ⌈Real.logb 2 (n : Real)⌉ := by
  have h := @Real.ceil_logb_natCast 2 (n : Real) (Nat.cast_nonneg n)
  rw [Int.clog_natCast] at h
  rw [bits_per_symbol_eq_clog]
  exact_mod_cast h.symm

/-! ## Lemmas on the progress of the loop -/

theorem bytes_for_bits_mono {a b : Nat} (h : a ≤ b) : bytes_for_bits a ≤ bytes_for_bits b := by
  unfold bytes_for_bits
  omega

theorem needed_bits_le (L W idx : Nat) (hnw : L * W < SIZE_MOD) :
    (W * (L - idx)) % SIZE_MOD = W * (L - idx) ∧ W * (L - idx) ≤ L * W ∧
      (L * W) % SIZE_MOD = L * W := by
  have h1 : W * (L - idx) ≤ L * W := by
    rw [Nat.mul_comm L W]
    exact Nat.mul_le_mul_left W (Nat.sub_le L idx)
  exact ⟨Nat.mod_eq_of_lt (Nat.lt_of_le_of_lt h1 hnw), h1, Nat.mod_eq_of_lt hnw⟩

/-- With the capacity computed at the head of `gen_pass` and no wrap-around in
`password_len * bits_per_symbol`, the assertion of line 190 holds in every state. -/
theorem needed_bytes_le_capacity (L W idx : Nat) (hnw : L * W < SIZE_MOD) :
    bytes_for_bits ((W * (L - idx)) % SIZE_MOD) ≤ bytes_for_bits ((L * W) % SIZE_MOD) := by
  obtain ⟨h1, h2, h3⟩ := needed_bits_le L W idx hnw
  rw [h1, h3]
  exact bytes_for_bits_mono h2

theorem needed_bytes_bounds (L W idx : Nat) (hW1 : 1 ≤ W) (hW8 : W ≤ 8) (hc : idx < L)
    (hnw : L * W < SIZE_MOD) :
    1 ≤ bytes_for_bits ((W * (L - idx)) % SIZE_MOD) ∧
      bytes_for_bits ((W * (L - idx)) % SIZE_MOD) ≤ L - idx := by
  rw [(needed_bits_le L W idx hnw).1]
  have h1 : 1 * (L - idx) ≤ W * (L - idx) := Nat.mul_le_mul_right _ hW1
  have h2 : W * (L - idx) ≤ 8 * (L - idx) := Nat.mul_le_mul_right _ hW8
  unfold bytes_for_bits
  constructor <;> omega

section progress
variable (symbols : List Char) (L W : Nat)

theorem refill_progress (hW1 : 1 ≤ W) (hW8 : W ≤ 8) (hnw : L * W < SIZE_MOD) (s : State)
    (hc : s.password.length < L) :
    (∃ sr, refill L W (bytes_for_bits ((L * W) % SIZE_MOD)) s = .ok sr ∧
        sr.password = s.password ∧ sr.draws = s.draws ∧ 1 ≤ sr.avail_rnd_symbols ∧
        (s.avail_rnd_symbols ≤ L - s.password.length →
          sr.avail_rnd_symbols ≤ L - s.password.length) ∧
        sr.avail_rnd_symbols + sr.rnd_dev.length = s.avail_rnd_symbols + s.rnd_dev.length ∧
        sr.requests.sum + s.avail_rnd_symbols = s.requests.sum + sr.avail_rnd_symbols) ∨
      (∃ s1, refill L W (bytes_for_bits ((L * W) % SIZE_MOD)) s = .error (.null s1) ∧
        s1.password = s.password ∧ s1.draws = s.draws ∧ s.avail_rnd_symbols = 0) := by
  by_cases havail : s.avail_rnd_symbols = 0
  · have hcap := needed_bytes_le_capacity L W s.password.length hnw
    obtain ⟨hk1, hk2⟩ := needed_bytes_bounds L W s.password.length hW1 hW8 hc hnw
    unfold refill
    simp only [if_pos havail, if_pos hcap]
    by_cases hshort : (s.rnd_dev.take
        (bytes_for_bits ((W * (L - s.password.length)) % SIZE_MOD))).length
        < bytes_for_bits ((W * (L - s.password.length)) % SIZE_MOD)
    · simp only [if_pos hshort]
      right
      exact ⟨_, rfl, rfl, rfl, havail⟩
    · simp only [if_neg hshort]
      left
      refine ⟨_, rfl, rfl, rfl, hk1, fun _ => hk2, ?_, ?_⟩
      · simp only [List.length_take, not_lt] at hshort
        simp only [List.length_drop, havail]
        omega
      · simp only [List.sum_append, List.sum_cons, List.sum_nil, havail]
        omega
  · left
    refine ⟨s, refill_of_avail_ne_zero L W _ havail, rfl, rfl, Nat.pos_of_ne_zero havail,
      fun h => h, rfl, rfl⟩

theorem draw_progress (cap : Nat) (s : State) (h1 : 1 ≤ s.avail_rnd_symbols)
    (h2 : s.avail_rnd_symbols ≤ SIZE_MOD) :
    (draw symbols W cap s).avail_rnd_symbols + 1 = s.avail_rnd_symbols ∧
      (draw symbols W cap s).draws.length = s.draws.length + 1 ∧
      s.password.length ≤ (draw symbols W cap s).password.length ∧
      (draw symbols W cap s).password.length ≤ s.password.length + 1 := by
  have hav : (s.avail_rnd_symbols + SIZE_MOD - 1) % SIZE_MOD + 1 = s.avail_rnd_symbols := by
    have : s.avail_rnd_symbols + SIZE_MOD - 1 = (s.avail_rnd_symbols - 1) + SIZE_MOD := by omega
    rw [this, Nat.add_mod_right, Nat.mod_eq_of_lt (by omega)]
    omega
  rw [draw_password, draw_draws]
  refine ⟨?_, by simp, by simp, ?_⟩
  · unfold draw
    by_cases h : sym_index W s.rnd_bytes < symbols.length
    · simp only [dif_pos h]; exact hav
    · simp only [dif_neg h]; exact hav
  · rw [List.length_append]
    have : (symbols[sym_index W s.rnd_bytes]?).toList.length ≤ 1 := by
      cases symbols[sym_index W s.rnd_bytes]? <;> simp
    omega

end progress

/-! ## Lemmas on the windows of the buffer -/

theorem div_eq_iff_mem_block (d v b : Nat) (hd : 0 < d) :
    b / d = v ↔ v * d ≤ b ∧ b < (v + 1) * d := by
  constructor
  · intro h
    subst h
    constructor
    · exact Nat.div_mul_le_self b d
    · have := Nat.lt_succ_self (b / d)
      exact (Nat.div_lt_iff_lt_mul hd).1 this
  · rintro ⟨h1, h2⟩
    apply Nat.le_antisymm
    · exact Nat.lt_succ_iff.1 ((Nat.div_lt_iff_lt_mul hd).2 h2)
    · exact (Nat.le_div_iff_mul_le hd).2 h1

theorem window_preimage (W : Nat) (hW1 : 1 ≤ W) (hW8 : W ≤ 8) (rest : List Nat) (v : Nat)
    (hv : v < 2 ^ W) :
    (Finset.range 256).filter (fun b => sym_index W (b :: rest) = v)
      = Finset.Ico (v * 2 ^ (8 - W)) ((v + 1) * 2 ^ (8 - W)) := by
  have h256 := two_pow_split hW8
  have hd : 0 < 2 ^ (8 - W) := Nat.two_pow_pos _
  ext b
  simp only [Finset.mem_filter, Finset.mem_range, Finset.mem_Ico]
  constructor
  · rintro ⟨hb, hs⟩
    have h := (mask_shift_eq_div W (by omega) b hb hW1).1
    exact (div_eq_iff_mem_block _ v b hd).1 (h ▸ hs)
  · rintro ⟨h1, h2⟩
    have hb : b < 256 := by
      have : (v + 1) * 2 ^ (8 - W) ≤ 2 ^ W * 2 ^ (8 - W) := Nat.mul_le_mul_right _ hv
      rw [Nat.mul_comm (2 ^ W), ← h256] at this
      omega
    refine ⟨hb, ?_⟩
    have h := (mask_shift_eq_div W (by omega) b hb hW1).1
    exact h.trans ((div_eq_iff_mem_block _ v b hd).2 ⟨h1, h2⟩)

theorem window_count (W : Nat) (hW1 : 1 ≤ W) (hW8 : W ≤ 8) (rest : List Nat) (v : Nat)
    (hv : v < 2 ^ W) :
    ((Finset.range 256).filter (fun b => sym_index W (b :: rest) = v)).card = 2 ^ (8 - W) := by
  rw [window_preimage W hW1 hW8 rest v hv, Nat.card_Ico, Nat.add_mul, Nat.one_mul,
    Nat.add_sub_cancel_left]

theorem be_value_append (pre suf : List Nat) :
    be_value (pre ++ suf) = be_value pre * 256 ^ suf.length + be_value suf := by
  induction pre with
  | nil => simp [be_value]
  | cons b pre ih =>
    show b * 256 ^ (pre ++ suf).length + be_value (pre ++ suf) = _
    simp only [be_value, ih, List.length_append, pow_add]
    ring

theorem shifted_value (W : Nat) (hW1 : 1 ≤ W) (hW8 : W ≤ 8) (l : List Nat)
    (hl : ∀ b ∈ l, b < 256) :
    be_value (shifted W l) = (be_value l * 2 ^ W) % 256 ^ l.length := by
  have hval := be_value_shifted W hW1 hW8 l hl
  have hlt := be_value_lt (shifted W l) (shifted_bytes W hW1 hW8 l hl)
  rw [shifted_length] at hlt
  rw [← hval, Nat.add_mul_mod_self_right]
  exact (Nat.mod_eq_of_lt hlt).symm

theorem shifted_iterate (W : Nat) (hW1 : 1 ≤ W) (hW8 : W ≤ 8) (l : List Nat)
    (hl : ∀ b ∈ l, b < 256) : ∀ j,
    (Nat.iterate (shifted W) j l).length = l.length ∧
      (∀ b ∈ Nat.iterate (shifted W) j l, b < 256) ∧
      be_value (Nat.iterate (shifted W) j l) = (be_value l * 2 ^ (j * W)) % 256 ^ l.length := by
  intro j
  induction j with
  | zero =>
    refine ⟨rfl, hl, ?_⟩
    simp only [Function.iterate_zero, id_eq, Nat.zero_mul, pow_zero, Nat.mul_one]
    exact (Nat.mod_eq_of_lt (be_value_lt l hl)).symm
  | succ j ih =>
    obtain ⟨h1, h2, h3⟩ := ih
    rw [Function.iterate_succ_apply']
    refine ⟨by rw [shifted_length, h1], shifted_bytes W hW1 hW8 _ h2, ?_⟩
    rw [shifted_value W hW1 hW8 _ h2, h1, h3, Nat.mod_mul_mod, Nat.mul_assoc, ← pow_add,
      Nat.succ_mul]

theorem sym_index_eq_value_div (W : Nat) (hW1 : 1 ≤ W) (hW8 : W ≤ 8) (l : List Nat)
    (hne : l ≠ []) (hl : ∀ b ∈ l, b < 256) :
    sym_index W l = be_value l / 2 ^ (8 * l.length - W) := by
  cases l with
  | nil => exact absurd rfl hne
  | cons b rest =>
    have hb : b < 256 := hl b (by simp)
    have hr := be_value_lt rest (fun c hc => hl c (List.mem_cons_of_mem _ hc))
    have hs : sym_index W (b :: rest) = b / 2 ^ (8 - W) :=
      (mask_shift_eq_div W (by omega) b hb hW1).1
    have hexp : 8 * (b :: rest).length - W = 8 * rest.length + (8 - W) := by
      simp only [List.length_cons]; omega
    have h256 : (256 : Nat) ^ rest.length = 2 ^ (8 * rest.length) := by
      rw [pow_mul]; rfl
    rw [hs, hexp, pow_add, ← Nat.div_div_eq_div_mul, ← h256]
    simp only [be_value]
    rw [Nat.add_comm, Nat.add_mul_div_right _ _ (Nat.pow_pos (by norm_num)),
      Nat.div_eq_of_lt hr, Nat.zero_add]

/-- The top `W` bits of an `n`-bit value shifted left by `a` bits are the `W` bits
of the value that start `a` bits from its top. -/
theorem shl_mod_div (V a W n : Nat) (h : a + W ≤ n) :
    (V * 2 ^ a % 2 ^ n) / 2 ^ (n - W) = (V / 2 ^ (n - a - W)) % 2 ^ W := by
  have hn : n = (n - a) + a := by omega
  have hnW : n - W = (n - a - W) + a := by omega
  have hna : n - a = (n - a - W) + W := by omega
  conv_lhs => rw [hnW]
  conv_lhs => lhs; rw [hn]
  rw [pow_add, Nat.mul_mod_mul_right, pow_add (2 : Nat) (n - a - W) a,
    Nat.mul_div_mul_right _ _ (Nat.two_pow_pos a)]
  conv_lhs => lhs; rw [hna, pow_add]
  rw [Nat.mod_mul_right_div_self]

theorem div_of_high_part (F R c m : Nat) (hR : R < 2 ^ c) :
    (F * 2 ^ c + R) / 2 ^ (c + m) = F / 2 ^ m := by
  rw [pow_add, ← Nat.div_div_eq_div_mul, Nat.add_comm,
    Nat.add_mul_div_right _ _ (Nat.two_pow_pos c), Nat.div_eq_of_lt hR, Nat.zero_add]

/-- After `j` shifts of a buffer that starts with the bytes `fresh`, the candidate
index is the `j`-th window of `fresh`, as long as that window lies inside `fresh`. -/
theorem sym_index_iterate (W : Nat) (hW1 : 1 ≤ W) (hW8 : W ≤ 8) (fresh stale : List Nat)
    (hf : ∀ b ∈ fresh, b < 256) (hs : ∀ b ∈ stale, b < 256) (j : Nat)
    (hj : (j + 1) * W ≤ 8 * fresh.length) :
    sym_index W (Nat.iterate (shifted W) j (fresh ++ stale)) = window W fresh j := by
  have hall : ∀ b ∈ fresh ++ stale, b < 256 := by
    intro b hb
    rcases List.mem_append.1 hb with h | h
    · exact hf b h
    · exact hs b h
  obtain ⟨hlen, hbytes, hval⟩ := shifted_iterate W hW1 hW8 (fresh ++ stale) hall j
  have hpos : 0 < fresh.length := by
    rcases Nat.eq_zero_or_pos fresh.length with h0 | h0
    · rw [h0] at hj
      have : 0 < (j + 1) * W := Nat.mul_pos (Nat.succ_pos j) hW1
      omega
    · exact h0
  have hne : Nat.iterate (shifted W) j (fresh ++ stale) ≠ [] := by
    intro h0
    rw [h0, List.length_append] at hlen
    simp at hlen
    omega
  rw [sym_index_eq_value_div W hW1 hW8 _ hne hbytes, hval, hlen]
  have h256 : (256 : Nat) ^ (fresh ++ stale).length = 2 ^ (8 * (fresh ++ stale).length) := by
    rw [pow_mul]; rfl
  have h256s : (256 : Nat) ^ stale.length = 2 ^ (8 * stale.length) := by
    rw [pow_mul]; rfl
  have hjW : (j + 1) * W = j * W + W := Nat.succ_mul j W
  rw [h256, shl_mod_div _ (j * W) W _ (by rw [List.length_append]; omega)]
  unfold window
  congr 1
  rw [be_value_append, h256s]
  have hexp : 8 * (fresh ++ stale).length - j * W - W
      = 8 * stale.length + (8 * fresh.length - (j + 1) * W) := by
    rw [List.length_append]; omega
  rw [hexp]
  exact div_of_high_part _ _ _ _ (h256s ▸ be_value_lt stale hs)

/-! ## Lemmas on whole runs -/

section progress2
variable (symbols : List Char) (L W : Nat)

theorem gen_pass_body_progress (hW1 : 1 ≤ W) (hW8 : W ≤ 8) (hnw : L * W < SIZE_MOD) (s : State)
    (hc : s.password.length < L) (hinv : s.avail_rnd_symbols ≤ L - s.password.length) :
    (∃ s1, gen_pass_body symbols L W (bytes_for_bits ((L * W) % SIZE_MOD)) s = .ok s1 ∧
        s1.avail_rnd_symbols ≤ L - s1.password.length ∧
        s1.draws.length = s.draws.length + 1 ∧
        s1.avail_rnd_symbols + s1.rnd_dev.length + 1
          = s.avail_rnd_symbols + s.rnd_dev.length ∧
        s1.requests.sum + s.draws.length + s.avail_rnd_symbols
          = s.requests.sum + s1.draws.length + s1.avail_rnd_symbols) ∨
      (∃ s1, gen_pass_body symbols L W (bytes_for_bits ((L * W) % SIZE_MOD)) s
          = .error (.null s1) ∧
        s1.password = s.password ∧ s1.draws = s.draws ∧ s.avail_rnd_symbols = 0) := by
  have hL : L < SIZE_MOD := by
    have : L * 1 ≤ L * W := Nat.mul_le_mul_left L hW1
    omega
  rcases refill_progress L W hW1 hW8 hnw s hc with
    ⟨sr, hr, hp, hd, h1, h2, h3, h4⟩ | ⟨s1, hr, hp, hd, h0⟩
  · left
    have h2a := h2 hinv
    obtain ⟨d1, d2, d3, d4⟩ := draw_progress symbols W (bytes_for_bits ((L * W) % SIZE_MOD)) sr
      h1 (by omega)
    obtain ⟨d5, d6⟩ := draw_supply symbols W (bytes_for_bits ((L * W) % SIZE_MOD)) sr
    refine ⟨draw symbols W (bytes_for_bits ((L * W) % SIZE_MOD)) sr, ?_, ?_, ?_, ?_, ?_⟩
    · unfold gen_pass_body
      rw [hr]
    · rw [hp] at d3 d4
      omega
    · rw [d2, hd]
    · rw [d6]
      omega
    · rw [d5, d2, hd]
      omega
  · right
    refine ⟨s1, ?_, hp, hd, h0⟩
    unfold gen_pass_body
    rw [hr]

/-- With a width from 1 to 8 the loop ends within one pass more than the sum of
the available symbols and the bytes left on the device, and never through the
assertion; each pass reads one candidate. -/
theorem gen_pass_loop_terminates (hW1 : 1 ≤ W) (hW8 : W ≤ 8) (hnw : L * W < SIZE_MOD) :
    ∀ (fuel : Nat) (s : State), s.avail_rnd_symbols ≤ L - s.password.length →
      s.avail_rnd_symbols + s.rnd_dev.length < fuel →
      ∃ e, gen_pass_loop symbols L W (bytes_for_bits ((L * W) % SIZE_MOD)) fuel s = some e ∧
        ((∃ s1, e = .returned s1) ∨ (∃ s1, e = .null s1)) ∧
        e.state.draws.length ≤ s.draws.length + s.avail_rnd_symbols + s.rnd_dev.length := by
  intro fuel
  induction fuel with
  | zero =>
    intro s _ h
    exact absurd h (Nat.not_lt_zero _)
  | succ fuel ih =>
    intro s hinv hfuel
    by_cases hc : s.password.length < L
    · rcases gen_pass_body_progress symbols L W hW1 hW8 hnw s hc hinv with
        ⟨s1, hb, h1, h2, h3, -⟩ | ⟨s1, hb, -, hd, -⟩
      · obtain ⟨e, he, hk, hn⟩ := ih s1 h1 (by omega)
        refine ⟨e, ?_, hk, by omega⟩
        simp only [gen_pass_loop, if_pos hc, hb]
        exact he
      · refine ⟨.null s1, ?_, Or.inr ⟨s1, rfl⟩, ?_⟩
        · simp only [gen_pass_loop, if_pos hc, hb]
        · show s1.draws.length ≤ _
          rw [hd]
          omega
    · exact ⟨.returned s, gen_pass_loop_done symbols L W _ (fuel + 1) hc, Or.inl ⟨s, rfl⟩,
        by show s.draws.length ≤ _; omega⟩

/-- The invariant of the loop on the available symbols and what it gives on exit
with a password. -/
theorem gen_pass_loop_avail (hW1 : 1 ≤ W) (hW8 : W ≤ 8) (hnw : L * W < SIZE_MOD)
    (n fuel : Nat) (s : State) (e : Exit)
    (h1 : s.avail_rnd_symbols ≤ L - s.password.length)
    (h2 : s.requests.sum = s.draws.length + s.avail_rnd_symbols)
    (h3 : s.requests.sum + s.rnd_dev.length = n)
    (h : gen_pass_loop symbols L W (bytes_for_bits ((L * W) % SIZE_MOD)) fuel s = some e) :
    ∀ s1, e = .returned s1 → s1.avail_rnd_symbols = 0 ∧ s1.requests.sum = s1.draws.length ∧
      s1.rnd_dev.length + s1.draws.length = n := by
  refine gen_pass_loop_exit symbols L W (bytes_for_bits ((L * W) % SIZE_MOD))
    (fun s => s.avail_rnd_symbols ≤ L - s.password.length ∧
      s.requests.sum = s.draws.length + s.avail_rnd_symbols ∧
      s.requests.sum + s.rnd_dev.length = n)
    (fun e => ∀ s1, e = .returned s1 → s1.avail_rnd_symbols = 0 ∧
      s1.requests.sum = s1.draws.length ∧ s1.rnd_dev.length + s1.draws.length = n)
    ?_ ?_ ?_ fuel s e ⟨h1, h2, h3⟩ h
  · intro s s1 hc hP hb
    obtain ⟨p1, p2, p3⟩ := hP
    rcases gen_pass_body_progress symbols L W hW1 hW8 hnw s hc p1 with
      ⟨s2, hb2, q1, q2, q3, q4⟩ | ⟨s2, hb2, -⟩
    · rw [hb] at hb2
      cases hb2
      refine ⟨q1, by omega, by omega⟩
    · rw [hb] at hb2
      cases hb2
  · intro s e hc _ hb s1 he
    have := (refill_error L W _ (gen_pass_body_error symbols L W _ hb)).2.2
    rw [he] at this
    cases this
  · intro s hc hP s1 he
    cases he
    obtain ⟨p1, p2, p3⟩ := hP
    have : s.avail_rnd_symbols = 0 := by omega
    refine ⟨this, by omega, by omega⟩

end progress2

theorem sym_index_lt (W : Nat) (hW8 : W ≤ 8) (buf : List Nat) : sym_index W buf < 2 ^ W := by
  unfold sym_index
  rw [Nat.shiftRight_eq_div_pow]
  have h1 : buf.headD 0 &&& bitmask W ≤ bitmask W := Nat.and_le_right
  have h2 : bitmask W < 2 ^ W * 2 ^ (8 - W) := by
    rw [Nat.mul_comm, ← two_pow_split hW8]
    exact Nat.lt_succ_of_le (Nat.sub_le 255 _)
  exact (Nat.div_lt_iff_lt_mul (Nat.two_pow_pos _)).2 (Nat.lt_of_le_of_lt h1 h2)

theorem bits_per_symbol_pow (k : Nat) : bits_per_symbol (2 ^ k) = k := by
  rw [bits_per_symbol_eq_clog, Nat.clog_pow 2 k (by decide)]

/-- Every candidate read in a run is below `2 ^ bits_per_symbol`. -/
theorem gen_pass_loop_draws_lt (symbols : List Char) (L W cap : Nat) (hW8 : W ≤ 8)
    (fuel : Nat) (s : State) (e : Exit) (hs : ∀ v ∈ s.draws, v < 2 ^ W)
    (h : gen_pass_loop symbols L W cap fuel s = some e) : ∀ v ∈ e.state.draws, v < 2 ^ W := by
  refine gen_pass_loop_exit symbols L W cap (fun s => ∀ v ∈ s.draws, v < 2 ^ W)
    (fun e => ∀ v ∈ e.state.draws, v < 2 ^ W) ?_ ?_ ?_ fuel s e hs h
  · intro s s1 _ hP hb
    obtain ⟨sr, hr, rfl⟩ := gen_pass_body_ok symbols L W cap hb
    intro v hv
    rw [draw_draws, (refill_ok L W cap hr).2, List.mem_append, List.mem_singleton] at hv
    rcases hv with hv | hv
    · exact hP v hv
    · rw [hv]
      exact sym_index_lt W hW8 _
  · intro s e _ hP hb
    rw [(refill_error L W cap (gen_pass_body_error symbols L W cap hb)).2.1]
    exact hP
  · intro s _ hP
    exact hP

theorem shifted_zero : ∀ l : List Nat, (∀ b ∈ l, b < 256) → shifted 0 l = l
  | [], _ => rfl
  | [c], hl => by
    have hc : c < 256 := hl c (by simp)
    simp [shifted, Nat.mod_eq_of_lt hc]
  | c :: c2 :: rest, hl => by
    have hc : c < 256 := hl c (by simp)
    have ih := shifted_zero (c2 :: rest) (fun b hb => hl b (List.mem_cons_of_mem _ hb))
    have hm : bitmask 0 = 0 := by decide
    simp only [shifted, ih, hm, Nat.and_zero, Nat.zero_shiftRight, Nat.or_zero,
      Nat.shiftLeft_zero, Nat.mod_eq_of_lt hc]

theorem draw_rnd_bytes (symbols : List Char) (W cap : Nat) (s : State) :
    (draw symbols W cap s).rnd_bytes = l_shift_array s.rnd_bytes cap W := by
  unfold draw
  by_cases h : sym_index W s.rnd_bytes < symbols.length
  · simp [h]
  · simp [h]

theorem draw_iterate_rnd_bytes (symbols : List Char) (W : Nat) (s : State) : ∀ j,
    (Nat.iterate (draw symbols W s.rnd_bytes.length) j s).rnd_bytes
      = Nat.iterate (shifted W) j s.rnd_bytes ∧
    (Nat.iterate (draw symbols W s.rnd_bytes.length) j s).rnd_bytes.length
      = s.rnd_bytes.length := by
  intro j
  induction j with
  | zero => exact ⟨rfl, rfl⟩
  | succ j ih =>
    rw [Function.iterate_succ_apply', Function.iterate_succ_apply', draw_rnd_bytes]
    have h := l_shift_array_eq_shifted W
      (Nat.iterate (draw symbols W s.rnd_bytes.length) j s).rnd_bytes
    rw [ih.2] at h
    rw [h, ih.1]
    refine ⟨rfl, ?_⟩
    rw [shifted_length, ← ih.1, ih.2]

theorem draw_iterate_avail (symbols : List Char) (W cap : Nat) (s : State)
    (hs : s.avail_rnd_symbols ≤ SIZE_MOD) : ∀ j, j ≤ s.avail_rnd_symbols →
    (Nat.iterate (draw symbols W cap) j s).avail_rnd_symbols = s.avail_rnd_symbols - j := by
  intro j
  induction j with
  | zero => intro _; rfl
  | succ j ih =>
    intro hj
    have hprev := ih (by omega)
    rw [Function.iterate_succ_apply']
    have := (draw_progress symbols W cap (Nat.iterate (draw symbols W cap) j s)
      (by omega) (by omega)).1
    omega

/-! ## Lemmas on the empty alphabet -/

section empty
variable (L W cap : Nat)

end empty

/-- C1: for an alphabet of 2 to 256 symbols, every requested length and every
entropy byte stream, a password returned by `gen_pass` has exactly
`password_len` symbols; for length 0 `gen_pass` returns the empty password and
passes no request to `fread`, the entropy device being left as it was. -/
theorem gen_pass_length (symbols : List Char) (_hlo : 2 ≤ symbols.length)
    (_hhi : symbols.length ≤ 256) (password_len fuel : Nat) (rnd_dev : List Nat) :
    (∀ pw, (gen_pass fuel rnd_dev password_len symbols).bind Exit.password = some pw →
        pw.length = password_len) ∧
      ∃ s, gen_pass fuel rnd_dev 0 symbols = some (.returned s) ∧
        s.password = [] ∧ s.requests = [] ∧ s.rnd_dev = rnd_dev := by
  constructor
  · intro pw h
    cases hg : gen_pass fuel rnd_dev password_len symbols with
    | none => rw [hg] at h; cases h
    | some e =>
      rw [hg] at h
      exact ((gen_pass_selection hg).2.2 pw h).2
  · refine ⟨initial_state rnd_dev 0, ?_, rfl, rfl, rfl⟩
    cases fuel <;> simp [gen_pass, gen_pass_core, gen_pass_loop, initial_state, bytes_for_bits]

theorem gen_pass_length_witness :
    (gen_pass 4 [192, 64, 224, 32] 2 ['A', 'B', 'C', 'D', 'E']).bind Exit.password
        = some ['C', 'B'] ∧ ['C', 'B'].length = 2 :=
  ⟨by decide,
    (gen_pass_length ['A', 'B', 'C', 'D', 'E'] (by decide) (by decide) 2 4
      [192, 64, 224, 32]).1 ['C', 'B'] (by decide)⟩

/-- C2: whenever `gen_pass` returns a password, each of its positions holds
`symbols[v]` for some index `v` below the length of the alphabet, so every
character of the password is an element of the alphabet. -/
theorem gen_pass_membership (symbols : List Char) (password_len fuel : Nat)
    (rnd_dev : List Nat) (pw : List Char)
    (h : (gen_pass fuel rnd_dev password_len symbols).bind Exit.password = some pw) :
    (∀ i, ∀ hi : i < pw.length, ∃ v, ∃ hv : v < symbols.length, pw[i] = symbols[v]) ∧
      ∀ c ∈ pw, c ∈ symbols := by
  cases hg : gen_pass fuel rnd_dev password_len symbols with
  | none => rw [hg] at h; cases h
  | some e =>
    rw [hg] at h
    obtain ⟨hacc, -, hpw⟩ := gen_pass_selection hg
    have hmem : ∀ c ∈ pw, ∃ v, ∃ hv : v < symbols.length, c = symbols[v] := by
      intro c hc
      rw [(hpw pw h).1, hacc] at hc
      obtain ⟨v, hv, -, heq⟩ := mem_accepted symbols hc
      exact ⟨v, hv, heq⟩
    constructor
    · intro i hi
      exact hmem pw[i] (List.getElem_mem hi)
    · intro c hc
      obtain ⟨v, hv, heq⟩ := hmem c hc
      rw [heq]
      exact List.getElem_mem hv

theorem gen_pass_membership_witness :
    (gen_pass 5 [0x90, 0xFF, 0x10, 0x6A] 3 ['x', 'y', 'z']).bind Exit.password
        = some ['z', 'x', 'y'] ∧ 'z' ∈ ['x', 'y', 'z'] :=
  ⟨by decide,
    (gen_pass_membership ['x', 'y', 'z'] 3 5 [0x90, 0xFF, 0x10, 0x6A] ['z', 'x', 'y']
      (by decide)).2 'z' (by decide)⟩

/-- C3: in any state of the loop, whatever symbols have been accepted so far, a
refill whose `fread` delivers fewer bytes than the count requested makes
`gen_pass` leave through `fail` and return no password.  Over a whole run: when
the requests of a run add up to more than the device can deliver, the run
returns no password. -/
theorem short_read_fails (symbols : List Char) (password_len bits_per_symbol rnd_bytes_len : Nat)
    (fuel : Nat) (s : State)
    (hloop : s.password.length < password_len) (havail : s.avail_rnd_symbols = 0)
    (hassert : bytes_for_bits ((bits_per_symbol * (password_len - s.password.length)) % SIZE_MOD)
      ≤ rnd_bytes_len)
    (hshort : (s.rnd_dev.take
        (bytes_for_bits ((bits_per_symbol * (password_len - s.password.length)) % SIZE_MOD))).length
      < bytes_for_bits ((bits_per_symbol * (password_len - s.password.length)) % SIZE_MOD)) :
    (∃ s1, gen_pass_loop symbols password_len bits_per_symbol rnd_bytes_len (fuel + 1) s
        = some (.null s1)) ∧
      (gen_pass_loop symbols password_len bits_per_symbol rnd_bytes_len (fuel + 1) s).bind
        Exit.password = none ∧
      ∀ fuel0 rnd_dev e, gen_pass fuel0 rnd_dev password_len symbols = some e →
        rnd_dev.length < e.state.requests.sum → e.password = none := by
  obtain ⟨s1, hs1, -⟩ := refill_of_short password_len bits_per_symbol rnd_bytes_len havail
    hassert hshort
  have hrun : gen_pass_loop symbols password_len bits_per_symbol rnd_bytes_len (fuel + 1) s
      = some (.null s1) := by
    simp only [gen_pass_loop, if_pos hloop, gen_pass_body, hs1]
  refine ⟨⟨s1, hrun⟩, by rw [hrun]; rfl, ?_⟩
  intro fuel0 rnd_dev e he hlt
  cases hp : e.password with
  | none => rfl
  | some pw =>
    have := gen_pass_loop_supply symbols password_len _ _ rnd_dev.length fuel0 _ e
      (by simp [initial_state]) he pw hp
    omega

theorem short_read_fails_witness :
    (gen_pass_loop ['A', 'B', 'C', 'D', 'E'] 2 3 1 1
        ⟨['E'], 0, [128], [], [1, 1], [6, 4]⟩).bind Exit.password = none :=
  (short_read_fails ['A', 'B', 'C', 'D', 'E'] 2 3 1 0 ⟨['E'], 0, [128], [], [1, 1], [6, 4]⟩
    (by decide) (by decide) (by decide) (by decide)).2.1

/-- C4: the candidate `v` read in a pass of the loop is appended to the password,
as `symbols[v]`, exactly when `v` is below the length of the alphabet, and
otherwise the password is left as it is.  A returned password is therefore, in
order, `symbols[v]` for the first `password_len` candidates `v` in range, and
these are all the candidates in range that were read. -/
theorem rejection_sampling (symbols : List Char) (password_len fuel : Nat)
    (rnd_dev : List Nat) (pw : List Char) (e : Exit)
    (hrun : gen_pass fuel rnd_dev password_len symbols = some e)
    (hpw : e.password = some pw) :
    (∀ bits rnd_bytes_len s,
        (draw symbols bits rnd_bytes_len s).draws = s.draws ++ [sym_index bits s.rnd_bytes] ∧
        (draw symbols bits rnd_bytes_len s).password =
          if h : sym_index bits s.rnd_bytes < symbols.length then
            s.password ++ [symbols[sym_index bits s.rnd_bytes]]
          else s.password) ∧
      pw = ((e.state.draws.filter (fun v => decide (v < symbols.length))).take
          password_len).filterMap (fun v => symbols[v]?) ∧
      (e.state.draws.filter (fun v => decide (v < symbols.length))).length = password_len := by
  obtain ⟨hacc, -, hsel⟩ := gen_pass_selection hrun
  obtain ⟨hpw1, hlen⟩ := hsel pw hpw
  obtain ⟨hf1, hf2⟩ := accepted_eq_filter symbols e.state.draws
  have hcount : (e.state.draws.filter (fun v => decide (v < symbols.length))).length
      = password_len := by
    rw [← hf2, ← hacc, ← hpw1, hlen]
  refine ⟨?_, ?_, hcount⟩
  · intro bits rnd_bytes_len s
    refine ⟨draw_draws symbols bits rnd_bytes_len s, ?_⟩
    unfold draw
    by_cases h : sym_index bits s.rnd_bytes < symbols.length
    · simp [h]
    · simp [h]
  · rw [List.take_of_length_le (Nat.le_of_eq hcount), ← hf1, ← hacc, hpw1]

theorem rejection_sampling_witness :
    gen_pass 6 [0xE0, 0x00, 0xA1, 0x7F, 0x20] 3 ['p', 'q', 'r', 's', 't']
      = some (.returned ⟨['p', 's', 'q'], 0, [0, 0], [], [2, 1, 1, 1], [7, 0, 5, 3, 1]⟩) ∧
    ['p', 's', 'q'] = (([7, 0, 5, 3, 1].filter (fun v => decide (v < 5))).take 3).filterMap
      (fun v => ['p', 'q', 'r', 's', 't'][v]?) :=
  ⟨by decide,
    (rejection_sampling ['p', 'q', 'r', 's', 't'] 3 6 [0xE0, 0x00, 0xA1, 0x7F, 0x20]
      ['p', 's', 'q']
      (.returned ⟨['p', 's', 'q'], 0, [0, 0], [], [2, 1, 1, 1], [7, 0, 5, 3, 1]⟩)
      (by decide) rfl).2.1⟩

/-- C5 as stated fails: with the alphabet "ABCDE" and length 2 the first read
asks for one byte only, so on the two bytes 0b11001011, 0b10010000 the
candidates are 6 and 4, the third read finds the device empty and `gen_pass`
returns `NULL`. -/
theorem gen_pass_ABCDE_packed_bytes :
    (gen_pass 3 [0b11001011, 0b10010000] 2 ['A', 'B', 'C', 'D', 'E']).map
        (fun e => (e.password, e.state.draws, e.state.requests))
      = some (none, [6, 4], [1, 1, 1]) := by
  decide

/-- C5, amended: with the alphabet "ABCDE" and length 2, every run of `gen_pass`
in which the candidates read are 6, 2, 7, 1 in this order returns the password
"CB", with two candidates accepted and two rejected. -/
theorem gen_pass_ABCDE_candidates (fuel : Nat) (rnd_dev : List Nat) (e : Exit)
    (hrun : gen_pass fuel rnd_dev 2 ['A', 'B', 'C', 'D', 'E'] = some e)
    (hdraws : e.state.draws = [6, 2, 7, 1]) :
    e.password = some ['C', 'B'] ∧
      (e.state.draws.filter (fun v => decide (v < 5))).length = 2 ∧
      (e.state.draws.filter (fun v => decide (5 ≤ v))).length = 2 := by
  obtain ⟨hacc, hnone, hsome⟩ := gen_pass_selection hrun
  rw [hdraws] at hacc
  have hpw : e.state.password = ['C', 'B'] := by rw [hacc]; decide
  refine ⟨?_, by rw [hdraws]; decide, by rw [hdraws]; decide⟩
  cases hp : e.password with
  | none =>
    have := hnone hp
    rw [hpw] at this
    exact absurd this (by decide)
  | some pw =>
    rw [(hsome pw hp).1, hpw]

theorem gen_pass_ABCDE_candidates_witness :
    gen_pass 4 [0b11000000, 0b01000000, 0b11100000, 0b00100000] 2 ['A', 'B', 'C', 'D', 'E']
      = some (.returned ⟨['C', 'B'], 0, [0], [], [1, 1, 1, 1], [6, 2, 7, 1]⟩) ∧
    (Exit.returned ⟨['C', 'B'], 0, [0], [], [1, 1, 1, 1], [6, 2, 7, 1]⟩).password
      = some ['C', 'B'] :=
  ⟨by decide,
    (gen_pass_ABCDE_candidates 4 [0b11000000, 0b01000000, 0b11100000, 0b00100000]
      (.returned ⟨['C', 'B'], 0, [0], [], [1, 1, 1, 1], [6, 2, 7, 1]⟩) (by decide) rfl).1⟩

/-- C6: for a width from 1 to 8 and a buffer of at least one byte, the candidate
index is the first byte divided by `2 ^ (8 - W)`, that is its top `W` bits as a
right-aligned value, and is below `2 ^ W`. -/
theorem sym_index_top_bits (W : Nat) (hW1 : 1 ≤ W) (hW8 : W ≤ 8) (b : Nat) (rest : List Nat)
    (hb : b < 256) :
    sym_index W (b :: rest) = b / 2 ^ (8 - W) ∧ sym_index W (b :: rest) < 2 ^ W := by
  exact mask_shift_eq_div W (by omega) b hb hW1

theorem sym_index_top_bits_witness :
    sym_index 3 [0b11010010, 0b01101100] = 0b11010010 / 2 ^ (8 - 3) ∧
      sym_index 3 [0b11010010, 0b01101100] < 2 ^ 3 :=
  sym_index_top_bits 3 (by decide) (by decide) 0b11010010 [0b01101100] (by decide)

/-- C7: for a buffer of at least one byte and a width `W` from 1 to 8,
`l_shift_array` leaves a buffer of the same length whose content, read as one
big-endian bit string of `8 * B` bits, is the original content shifted left by
`W` bits: the `W` leading bits are dropped and the low `W` bits of the last byte
are zero.  For `W = 8` this drops the first byte, moves every other byte down
one position and stores 0 in the last byte. -/
theorem l_shift_array_shifts_left (buf : List Nat) (W : Nat) (hB : 1 ≤ buf.length)
    (hW1 : 1 ≤ W) (hW8 : W ≤ 8) (hbytes : ∀ b ∈ buf, b < 256) :
    (l_shift_array buf buf.length W).length = buf.length ∧
      (∀ b ∈ l_shift_array buf buf.length W, b < 256) ∧
      be_value (l_shift_array buf buf.length W)
        = (be_value buf * 2 ^ W) % 2 ^ (8 * buf.length) ∧
      (∀ last, (l_shift_array buf buf.length W).getLast? = some last → last % 2 ^ W = 0) ∧
      (W = 8 → l_shift_array buf buf.length W = buf.tail ++ [0]) := by
  rw [l_shift_array_eq_shifted]
  have hne : buf ≠ [] := by
    intro h
    rw [h] at hB
    simp at hB
  refine ⟨shifted_length W buf, shifted_bytes W hW1 hW8 buf hbytes, ?_,
    shifted_getLast W hW8 buf, ?_⟩
  · have hval := be_value_shifted W hW1 hW8 buf hbytes
    have hlt := be_value_lt (shifted W buf) (shifted_bytes W hW1 hW8 buf hbytes)
    rw [shifted_length] at hlt
    have h8 : (2 : Nat) ^ (8 * buf.length) = 256 ^ buf.length := by
      rw [pow_mul]
      rfl
    rw [h8, ← hval, Nat.add_mul_mod_self_right]
    exact (Nat.mod_eq_of_lt hlt).symm
  · intro h8
    subst h8
    exact shifted_eight buf hne hbytes

theorem l_shift_array_shifts_left_witness :
    l_shift_array [0b11010010, 0b01101100] 2 3 = [0b10010011, 0b01100000] ∧
      be_value (l_shift_array [0b11010010, 0b01101100] 2 3)
        = (be_value [0b11010010, 0b01101100] * 2 ^ 3) % 2 ^ (8 * 2) :=
  ⟨by decide,
    (l_shift_array_shifts_left [0b11010010, 0b01101100] 3 (by decide) (by decide) (by decide)
      (by decide)).2.2.1⟩

/-- C8: for an alphabet of 1 to 256 symbols, `bits_per_symbol`, which is the
ceiling of the logarithm to base 2 of the length, satisfies
`2 ^ bits_per_symbol ≥ N`, and `2 ^ (bits_per_symbol - 1) < N` when `N ≥ 2`: it is
the least `k` with `2 ^ k ≥ N`. -/
theorem bits_per_symbol_minimal (N : Nat) (h1 : 1 ≤ N) (h256 : N ≤ 256) :
    (bits_per_symbol N : Int) = ⌈Real.logb 2 (N : Real)⌉ ∧
      N ≤ 2 ^ bits_per_symbol N ∧
      (2 ≤ N → 2 ^ (bits_per_symbol N - 1) < N) ∧
      (∀ k, N ≤ 2 ^ k → bits_per_symbol N ≤ k) ∧
      bits_per_symbol N ≤ 8 := by
  obtain ⟨hle, hmin⟩ := bits_per_symbol_spec N
  have hleast : ∀ k, N ≤ 2 ^ k → bits_per_symbol N ≤ k := by
    intro k hk
    by_contra hlt
    exact absurd hk (Nat.not_le_of_lt (hmin k (Nat.lt_of_not_le hlt)))
  refine ⟨bits_per_symbol_eq_ceil_logb N, hle, ?_, hleast, hleast 8 h256⟩
  intro h2
  apply hmin
  have hpos : bits_per_symbol N ≠ 0 := by
    intro h0
    rw [h0] at hle
    simp at hle
    omega
  omega

theorem bits_per_symbol_minimal_witness :
    bits_per_symbol 5 = 3 ∧ 5 ≤ 2 ^ bits_per_symbol 5 ∧ 2 ^ (bits_per_symbol 5 - 1) < 5 :=
  ⟨by decide,
    (bits_per_symbol_minimal 5 (by decide) (by decide)).2.1,
    (bits_per_symbol_minimal 5 (by decide) (by decide)).2.2.1 (by decide)⟩

/-- C9: a pass of the loop calls `fread` only when `avail_rnd_symbols` is 0, and
the loop runs a pass only while the password is incomplete.  Such a pass makes
exactly one request, for exactly the ceiling of
`(password_len - password_index) * bits_per_symbol / 8` bytes (the product taken
without wrap-around of `size_t`), and takes exactly that many bytes off the
device; a pass with symbols available makes no request. -/
theorem refill_reads_exactly (symbols : List Char)
    (password_len bits_per_symbol rnd_bytes_len : Nat) (s : State) :
    (¬ s.password.length < password_len → ∀ fuel,
        gen_pass_loop symbols password_len bits_per_symbol rnd_bytes_len fuel s
          = some (.returned s)) ∧
      (s.password.length < password_len → s.avail_rnd_symbols ≠ 0 →
        ∃ s1, gen_pass_body symbols password_len bits_per_symbol rnd_bytes_len s = .ok s1 ∧
          s1.requests = s.requests ∧ s1.rnd_dev = s.rnd_dev) ∧
      (s.password.length < password_len → s.avail_rnd_symbols = 0 →
        bits_per_symbol * (password_len - s.password.length) < SIZE_MOD →
        ∃ k, bits_per_symbol * (password_len - s.password.length) ≤ 8 * k ∧
          8 * k < bits_per_symbol * (password_len - s.password.length) + 8 ∧
          ((∃ s1, gen_pass_body symbols password_len bits_per_symbol rnd_bytes_len s = .ok s1 ∧
              s1.requests = s.requests ++ [k] ∧ s1.rnd_dev = s.rnd_dev.drop k ∧
              k ≤ s.rnd_dev.length) ∨
            (∃ s1, gen_pass_body symbols password_len bits_per_symbol rnd_bytes_len s
                = .error (.null s1) ∧
              s1.requests = s.requests ++ [k] ∧ s.rnd_dev.length < k) ∨
            (gen_pass_body symbols password_len bits_per_symbol rnd_bytes_len s
                = .error (.aborted s) ∧ rnd_bytes_len < k))) := by
  refine ⟨fun h fuel => gen_pass_loop_done symbols password_len bits_per_symbol rnd_bytes_len
    fuel h, ?_, ?_⟩
  · intro _ havail
    refine ⟨_, gen_pass_body_of_avail_ne_zero symbols password_len bits_per_symbol
      rnd_bytes_len havail, ?_⟩
    exact draw_supply symbols bits_per_symbol rnd_bytes_len s
  · intro _ havail hnowrap
    refine ⟨bytes_for_bits (bits_per_symbol * (password_len - s.password.length)), ?_, ?_, ?_⟩
    · unfold bytes_for_bits; omega
    · unfold bytes_for_bits; omega
    · unfold gen_pass_body refill
      simp only [if_pos havail, Nat.mod_eq_of_lt hnowrap]
      by_cases hassert :
          bytes_for_bits (bits_per_symbol * (password_len - s.password.length)) ≤ rnd_bytes_len
      · simp only [if_pos hassert]
        by_cases hshort : (s.rnd_dev.take
            (bytes_for_bits (bits_per_symbol * (password_len - s.password.length)))).length
            < bytes_for_bits (bits_per_symbol * (password_len - s.password.length))
        · simp only [if_pos hshort]
          right
          left
          refine ⟨_, rfl, rfl, ?_⟩
          simp only [List.length_take] at hshort
          omega
        · simp only [if_neg hshort]
          left
          refine ⟨_, rfl, ?_, ?_, ?_⟩
          · exact (draw_supply symbols bits_per_symbol rnd_bytes_len _).1
          · exact (draw_supply symbols bits_per_symbol rnd_bytes_len _).2
          · simp only [List.length_take] at hshort
            omega
      · simp only [if_neg hassert]
        exact Or.inr (Or.inr ⟨trivial, Nat.lt_of_not_le hassert⟩)

theorem refill_reads_exactly_witness :
    ∃ k, 4 * (10 - 3) ≤ 8 * k ∧ 8 * k < 4 * (10 - 3) + 8 ∧
      ((∃ s1, gen_pass_body ['a', 'b', 'c', 'd', 'e', 'f', 'g', 'h', 'i', 'j'] 10 4 5
            ⟨['a', 'b', 'a'], 0, [0, 0, 0, 0, 0], [9, 8, 7, 6, 5], [5], [0, 1, 11, 12, 0]⟩ = .ok s1 ∧
          s1.requests = [5] ++ [k] ∧ s1.rnd_dev = [9, 8, 7, 6, 5].drop k ∧ k ≤ 5) ∨
        (∃ s1, gen_pass_body ['a', 'b', 'c', 'd', 'e', 'f', 'g', 'h', 'i', 'j'] 10 4 5
            ⟨['a', 'b', 'a'], 0, [0, 0, 0, 0, 0], [9, 8, 7, 6, 5], [5], [0, 1, 11, 12, 0]⟩
            = .error (.null s1) ∧
          s1.requests = [5] ++ [k] ∧ 5 < k) ∨
        (gen_pass_body ['a', 'b', 'c', 'd', 'e', 'f', 'g', 'h', 'i', 'j'] 10 4 5
            ⟨['a', 'b', 'a'], 0, [0, 0, 0, 0, 0], [9, 8, 7, 6, 5], [5], [0, 1, 11, 12, 0]⟩
            = .error (.aborted
              ⟨['a', 'b', 'a'], 0, [0, 0, 0, 0, 0], [9, 8, 7, 6, 5], [5], [0, 1, 11, 12, 0]⟩) ∧
          5 < k)) :=
  (refill_reads_exactly ['a', 'b', 'c', 'd', 'e', 'f', 'g', 'h', 'i', 'j'] 10 4 5
    ⟨['a', 'b', 'a'], 0, [0, 0, 0, 0, 0], [9, 8, 7, 6, 5], [5], [0, 1, 11, 12, 0]⟩).2.2
    (by decide) (by decide) (by decide)

/-- C11: for a width `W` from 1 to 8, every candidate value below `2 ^ W` is the
window read from exactly `2 ^ (8 - W)` of the 256 values of the leading byte of
the buffer.  Any two indices of an alphabet of at most `2 ^ W` symbols are
therefore selected by the same number of byte values. -/
theorem window_uniform (W : Nat) (hW1 : 1 ≤ W) (hW8 : W ≤ 8) (rest : List Nat) :
    (∀ v, v < 2 ^ W →
        ((Finset.range 256).filter (fun b => sym_index W (b :: rest) = v)).card
          = 2 ^ (8 - W)) ∧
      ∀ N i j, N ≤ 2 ^ W → i < N → j < N →
        ((Finset.range 256).filter (fun b => sym_index W (b :: rest) = i)).card
          = ((Finset.range 256).filter (fun b => sym_index W (b :: rest) = j)).card := by
  refine ⟨fun v hv => window_count W hW1 hW8 rest v hv, ?_⟩
  intro N i j hN hi hj
  rw [window_count W hW1 hW8 rest i (by omega), window_count W hW1 hW8 rest j (by omega)]

theorem window_uniform_witness :
    ((Finset.range 256).filter (fun b => sym_index 3 [b, 0x6C] = 6)).card = 2 ^ (8 - 3) :=
  (window_uniform 3 (by decide) (by decide) [0x6C]).1 6 (by decide)

/-- C12: for an alphabet whose length is a power of two, `2 ^ k` with `k` from 1 to
8, every candidate read is in range, so a run that returns a password of
`password_len` symbols has read exactly `password_len` candidates.  For every
alphabet of at least 2 symbols fewer than half of the `2 ^ bits_per_symbol`
window values are out of range. -/
theorem power_of_two_no_rejection (k : Nat) (hk1 : 1 ≤ k) (hk8 : k ≤ 8) (symbols : List Char)
    (hN : symbols.length = 2 ^ k) (password_len fuel : Nat) (rnd_dev : List Nat) :
    (∀ e, gen_pass fuel rnd_dev password_len symbols = some e →
        (∀ v ∈ e.state.draws, v < symbols.length) ∧
        (∀ pw, e.password = some pw → e.state.draws.length = password_len)) ∧
      ∀ N, 2 ≤ N → 2 ^ bits_per_symbol N - N < 2 ^ (bits_per_symbol N - 1) := by
  constructor
  · intro e hrun
    have hW : bits_per_symbol symbols.length = k := by rw [hN, bits_per_symbol_pow]
    have hlt : ∀ v ∈ e.state.draws, v < symbols.length := by
      intro v hv
      have := gen_pass_loop_draws_lt symbols password_len (bits_per_symbol symbols.length) _
        (by omega) fuel _ e (by simp [initial_state]) hrun v hv
      rw [hW, ← hN] at this
      exact this
    refine ⟨hlt, ?_⟩
    intro pw hpw
    obtain ⟨hacc, -, hsel⟩ := gen_pass_selection hrun
    obtain ⟨hpw1, hlen⟩ := hsel pw hpw
    have hall : e.state.draws.filter (fun v => decide (v < symbols.length)) = e.state.draws :=
      List.filter_eq_self.2 (fun v hv => decide_eq_true (hlt v hv))
    rw [← hlen, hpw1, hacc, (accepted_eq_filter symbols e.state.draws).2, hall]
  · intro N hN2
    obtain ⟨hle, hmin⟩ := bits_per_symbol_spec N
    have hpos : bits_per_symbol N ≠ 0 := by
      intro h0
      rw [h0] at hle
      simp at hle
      omega
    have hhalf := hmin (bits_per_symbol N - 1) (by omega)
    have hpow : 2 ^ bits_per_symbol N = 2 * 2 ^ (bits_per_symbol N - 1) := by
      rw [← pow_succ']
      congr 1
      omega
    omega

theorem power_of_two_no_rejection_witness :
    gen_pass 4 [128, 0, 128] 3 ['a', 'b']
        = some (.returned ⟨['b', 'a', 'b'], 0, [0], [], [1, 1, 1], [1, 0, 1]⟩) ∧
      [1, 0, 1].length = 3 :=
  ⟨by decide,
    ((power_of_two_no_rejection 1 (by decide) (by decide) ['a', 'b'] (by decide) 3 4
      [128, 0, 128]).1 (.returned ⟨['b', 'a', 'b'], 0, [0], [], [1, 1, 1], [1, 0, 1]⟩)
      (by decide)).2 ['b', 'a', 'b'] rfl⟩

/-- C13 fails on the code: the refill of line 196 sets `avail_rnd_symbols` to the
number of bytes read.  With the alphabet "ABCDE" (width 3) and length 2 the first
refill reads 1 byte and leaves 1 symbol available, where the byte holds
`8 * 1 / 3 = 2` complete windows. -/
theorem refill_counts_bytes :
    (match refill 2 3 1 (initial_state [0b11001011, 0b10010000] 1) with
      | .ok s => some (s.avail_rnd_symbols, s.requests)
      | .error _ => none) = some (1, [1]) ∧ 8 * 1 / 3 = 2 := by
  decide

/-- C14: after a refill that read `k` bytes, with a width from 1 to 8, the
candidate of the `j`-th following pass, for `j` below the count of available
symbols the refill set, is the window of bits `[j * W, (j + 1) * W)` of the `k`
bytes just read.  It depends on no byte the buffer held before and on no zero
shifted in, although every shift goes over the whole capacity of the buffer. -/
theorem windows_from_fresh_bytes (symbols : List Char) (password_len W : Nat)
    (hW1 : 1 ≤ W) (hW8 : W ≤ 8) (s sr : State)
    (hdev : ∀ b ∈ s.rnd_dev, b < 256) (hbuf : ∀ b ∈ s.rnd_bytes, b < 256)
    (havail : s.avail_rnd_symbols = 0)
    (hrefill : refill password_len W s.rnd_bytes.length s = .ok sr)
    (j : Nat) (hj : j < sr.avail_rnd_symbols) :
    sr.rnd_bytes = s.rnd_dev.take sr.avail_rnd_symbols
        ++ s.rnd_bytes.drop sr.avail_rnd_symbols ∧
      (s.rnd_dev.take sr.avail_rnd_symbols).length = sr.avail_rnd_symbols ∧
      (j + 1) * W ≤ 8 * sr.avail_rnd_symbols ∧
      (Nat.iterate (draw symbols W s.rnd_bytes.length) j sr).avail_rnd_symbols
        = sr.avail_rnd_symbols - j ∧
      (Nat.iterate (draw symbols W s.rnd_bytes.length) j sr).rnd_bytes.length
        = s.rnd_bytes.length ∧
      sym_index W (Nat.iterate (draw symbols W s.rnd_bytes.length) j sr).rnd_bytes
        = window W (s.rnd_dev.take sr.avail_rnd_symbols) j := by
  have hmod : (W * (password_len - s.password.length)) % SIZE_MOD < SIZE_MOD :=
    Nat.mod_lt _ (by decide)
  unfold refill at hrefill
  simp only [if_pos havail] at hrefill
  split at hrefill
  · rename_i hcap
    split at hrefill
    · cases hrefill
    · rename_i hfull
      cases hrefill
      simp only [List.length_take, not_lt] at hfull
      generalize hk : bytes_for_bits ((W * (password_len - s.password.length)) % SIZE_MOD)
        = k at hcap hfull hj ⊢
      have hkM : k ≤ SIZE_MOD := by
        rw [← hk]
        unfold bytes_for_bits
        omega
      have htake : (s.rnd_dev.take k).length = k := by
        rw [List.length_take]
        omega
      have hjW : (j + 1) * W ≤ 8 * k := by
        have h1 : (j + 1) * W ≤ k * W := Nat.mul_le_mul_right W hj
        have h2 : k * W ≤ k * 8 := Nat.mul_le_mul_left k hW8
        omega
      simp only at hj ⊢
      rw [htake]
      have hlen : (s.rnd_dev.take k ++ s.rnd_bytes.drop k).length = s.rnd_bytes.length := by
        rw [List.length_append, htake, List.length_drop]
        omega
      have hiter := draw_iterate_rnd_bytes symbols W
        ⟨s.password, k, s.rnd_dev.take k ++ s.rnd_bytes.drop k, s.rnd_dev.drop k,
          s.requests ++ [k], s.draws⟩ j
      simp only [hlen] at hiter
      refine ⟨rfl, rfl, hjW, ?_, hiter.2, ?_⟩
      · exact draw_iterate_avail symbols W _ _ hkM j (Nat.le_of_lt hj)
      · rw [hiter.1]
        have h := sym_index_iterate W hW1 hW8 (s.rnd_dev.take k) (s.rnd_bytes.drop k)
          (fun b hb => hdev b (List.mem_of_mem_take hb))
          (fun b hb => hbuf b (List.mem_of_mem_drop hb)) j (by rw [htake]; exact hjW)
        exact h
  · cases hrefill

theorem windows_from_fresh_bytes_witness :
    sym_index 4 (Nat.iterate (draw ['a', 'b', 'c', 'd', 'e', 'f', 'g', 'h', 'i', 'j'] 4 5) 3
        ⟨['a', 'b', 'a'], 4, [0x12, 0x34, 0x56, 0x78, 0xBB], [0x9A], [5, 4],
          [0, 1, 11, 12, 0]⟩).rnd_bytes
      = window 4 [0x12, 0x34, 0x56, 0x78] 3 ∧ window 4 [0x12, 0x34, 0x56, 0x78] 3 = 4 :=
  ⟨(windows_from_fresh_bytes ['a', 'b', 'c', 'd', 'e', 'f', 'g', 'h', 'i', 'j'] 10 4
      (by decide) (by decide)
      ⟨['a', 'b', 'a'], 0, [0xFF, 0xEE, 0xDD, 0xCC, 0xBB], [0x12, 0x34, 0x56, 0x78, 0x9A], [5],
        [0, 1, 11, 12, 0]⟩
      ⟨['a', 'b', 'a'], 4, [0x12, 0x34, 0x56, 0x78, 0xBB], [0x9A], [5, 4], [0, 1, 11, 12, 0]⟩
      (by decide) (by decide) (by decide) rfl 3 (by decide)).2.2.2.2.2,
    by decide⟩

/-- C15: when `password_len * bits_per_symbol` does not wrap around, the count
of bytes of every refill is at most the capacity `rnd_bytes_len` computed at the
head of `gen_pass`, and no run of `gen_pass` ends in the assertion of line 190. -/
theorem assertion_never_fails (password_len bits : Nat)
    (hnw : password_len * bits < SIZE_MOD) :
    (∀ password_index,
        bytes_for_bits ((bits * (password_len - password_index)) % SIZE_MOD)
          ≤ bytes_for_bits ((password_len * bits) % SIZE_MOD)) ∧
      ∀ symbols fuel rnd_dev e,
        gen_pass_core bits fuel rnd_dev password_len symbols = some e →
        ∀ s, e ≠ .aborted s := by
  refine ⟨fun idx => needed_bytes_le_capacity password_len bits idx hnw, ?_⟩
  intro symbols fuel rnd_dev e hrun
  refine gen_pass_loop_exit symbols password_len bits
    (bytes_for_bits ((password_len * bits) % SIZE_MOD)) (fun _ => True)
    (fun e => ∀ s, e ≠ .aborted s) ?_ ?_ ?_ fuel _ e trivial hrun
  · intro _ _ _ _ _
    trivial
  · intro s e _ _ hb s1 he
    have hr := gen_pass_body_error symbols password_len bits _ hb
    rw [he] at hr
    unfold refill at hr
    have hcap := needed_bytes_le_capacity password_len bits s.password.length hnw
    split at hr
    · simp only [if_pos hcap] at hr
      split at hr <;> cases hr
    · cases hr
  · intro s _ _ s1 he
    cases he

theorem assertion_never_fails_witness :
    bytes_for_bits ((4 * (10 - 3)) % SIZE_MOD) ≤ bytes_for_bits ((10 * 4) % SIZE_MOD) :=
  (assertion_never_fails 10 4 (by decide)).1 3

/-- C16: for an alphabet of one symbol `bits_per_symbol` is 0, the mask is 0, and
the capacity of the buffer and the count of every refill are 0 bytes.  Every
candidate is then 0 whatever the buffer holds, `l_shift_array` with `bits = 0`
leaves a buffer as it is, and in every run each request is for 0 bytes and each
candidate read is 0. -/
theorem single_symbol_alphabet :
    bits_per_symbol 1 = 0 ∧ bitmask 0 = 0 ∧
      (∀ password_len, bytes_for_bits ((password_len * bits_per_symbol 1) % SIZE_MOD) = 0) ∧
      (∀ password_len password_index,
        bytes_for_bits ((bits_per_symbol 1 * (password_len - password_index)) % SIZE_MOD) = 0) ∧
      (∀ rnd_bytes, sym_index 0 rnd_bytes = 0) ∧
      (∀ arr, (∀ b ∈ arr, b < 256) → l_shift_array arr arr.length 0 = arr) ∧
      ∀ c fuel rnd_dev password_len e, gen_pass fuel rnd_dev password_len [c] = some e →
        (∀ r ∈ e.state.requests, r = 0) ∧ (∀ v ∈ e.state.draws, v = 0) := by
  have hb : bits_per_symbol 1 = 0 := by decide
  refine ⟨hb, by decide, ?_, ?_, ?_, ?_, ?_⟩
  · intro L
    rw [hb, Nat.mul_zero]
    rfl
  · intro L idx
    rw [hb, Nat.zero_mul]
    rfl
  · intro buf
    unfold sym_index
    rw [show bitmask 0 = 0 by decide, Nat.and_zero, Nat.zero_shiftRight]
  · intro arr harr
    rw [l_shift_array_eq_shifted, shifted_zero arr harr]
  · intro c fuel rnd_dev L e hrun
    have hrun1 : gen_pass_loop [c] L 0 0 fuel (initial_state rnd_dev 0) = some e := by
      have h := hrun
      unfold gen_pass gen_pass_core at h
      simp only [List.length_singleton, hb, Nat.mul_zero, Nat.zero_mod] at h
      exact h
    refine gen_pass_loop_exit [c] L 0 0
      (fun s => (∀ r ∈ s.requests, r = 0) ∧ (∀ v ∈ s.draws, v = 0))
      (fun e => (∀ r ∈ e.state.requests, r = 0) ∧ (∀ v ∈ e.state.draws, v = 0))
      ?_ ?_ ?_ fuel _ e ⟨by simp [initial_state], by simp [initial_state]⟩ hrun1
    · intro s s1 _ hP hbody
      obtain ⟨sr, hr, rfl⟩ := gen_pass_body_ok [c] L 0 0 hbody
      obtain ⟨-, hd⟩ := refill_ok L 0 0 hr
      constructor
      · rw [(draw_supply [c] 0 0 sr).1]
        unfold refill at hr
        split at hr
        · simp only [Nat.zero_mul, Nat.zero_mod] at hr
          split at hr
          · split at hr
            · cases hr
            · cases hr
              intro r hr1
              simp only [List.mem_append, List.mem_singleton] at hr1
              rcases hr1 with h1 | h1
              · exact hP.1 r h1
              · rw [h1]; rfl
          · cases hr
        · cases hr
          exact hP.1
      · intro v hv
        rw [draw_draws, hd, List.mem_append, List.mem_singleton] at hv
        rcases hv with h1 | h1
        · exact hP.2 v h1
        · rw [h1]
          unfold sym_index
          rw [show bitmask 0 = 0 by decide, Nat.and_zero, Nat.zero_shiftRight]
    · intro s e _ hP hbody
      have hr := gen_pass_body_error [c] L 0 0 hbody
      obtain ⟨-, hd, -⟩ := refill_error L 0 0 hr
      refine ⟨?_, by rw [hd]; exact hP.2⟩
      unfold refill at hr
      split at hr
      · simp only [Nat.zero_mul, Nat.zero_mod] at hr
        split at hr
        · split at hr
          · cases hr
            intro r hr1
            simp only [Exit.state, List.mem_append, List.mem_singleton] at hr1
            rcases hr1 with h1 | h1
            · exact hP.1 r h1
            · rw [h1]; rfl
          · cases hr
        · cases hr
          exact hP.1
      · cases hr
    · intro s _ hP
      exact hP

theorem single_symbol_alphabet_witness :
    (gen_pass 5 [1, 2, 3] 5 ['a']).map (fun e => (e.password, e.state.requests, e.state.draws))
        = some (some ['a', 'a', 'a', 'a', 'a'], [0], [0, 0, 0, 0, 0]) ∧
      l_shift_array [0b11010010, 0b01101100] 2 0 = [0b11010010, 0b01101100] :=
  ⟨by decide, single_symbol_alphabet.2.2.2.2.2.1 [0b11010010, 0b01101100] (by decide)⟩

/-- C17: for a width from 1 to 8 (and no wrap-around in
`password_len * bits_per_symbol`), `avail_rnd_symbols ≤ password_len -
password_index` holds when the loop is entered and is kept by every pass.  A run
that returns a password therefore ends with no symbol available, and the bytes it
read from the device are as many as the candidates it read. -/
theorem avail_le_remaining (symbols : List Char) (password_len W : Nat)
    (hW1 : 1 ≤ W) (hW8 : W ≤ 8) (hnw : password_len * W < SIZE_MOD) :
    (∀ rnd_dev rnd_bytes_len,
        (initial_state rnd_dev rnd_bytes_len).avail_rnd_symbols
          ≤ password_len - (initial_state rnd_dev rnd_bytes_len).password.length) ∧
      (∀ s s1, s.password.length < password_len →
        s.avail_rnd_symbols ≤ password_len - s.password.length →
        gen_pass_body symbols password_len W
          (bytes_for_bits ((password_len * W) % SIZE_MOD)) s = .ok s1 →
        s1.avail_rnd_symbols ≤ password_len - s1.password.length) ∧
      ∀ fuel rnd_dev s,
        gen_pass_core W fuel rnd_dev password_len symbols = some (.returned s) →
        s.avail_rnd_symbols = 0 ∧ s.requests.sum = s.draws.length ∧
          s.rnd_dev.length + s.draws.length = rnd_dev.length := by
  refine ⟨fun _ _ => Nat.zero_le _, ?_, ?_⟩
  · intro s s1 hc hinv hb
    rcases gen_pass_body_progress symbols password_len W hW1 hW8 hnw s hc hinv with
      ⟨s2, hb2, q1, -⟩ | ⟨s2, hb2, -⟩
    · rw [hb] at hb2
      cases hb2
      exact q1
    · rw [hb] at hb2
      cases hb2
  · intro fuel rnd_dev s hrun
    exact gen_pass_loop_avail symbols password_len W hW1 hW8 hnw rnd_dev.length fuel
      (initial_state rnd_dev _) (.returned s) (Nat.zero_le _) rfl
      (by simp [initial_state]) hrun s rfl

theorem avail_le_remaining_witness :
    (⟨['f', 'd', 'h'], 0, [0, 0], [0x55], [2, 1], [5, 3, 7]⟩ : State).avail_rnd_symbols = 0 ∧
      [2, 1].sum = [5, 3, 7].length ∧ [0x55].length + [5, 3, 7].length = 4 :=
  (avail_le_remaining ['a', 'b', 'c', 'd', 'e', 'f', 'g', 'h'] 3 3 (by decide) (by decide)
    (by decide)).2.2 5 [0b10101100, 0x00, 0xE0, 0x55]
    ⟨['f', 'd', 'h'], 0, [0, 0], [0x55], [2, 1], [5, 3, 7]⟩ (by decide)

/-- C18: for a width from 1 to 8 (and no wrap-around in
`password_len * bits_per_symbol`) and a device that holds `n` bytes, `gen_pass`
ends within `n + 1` passes of its loop, with a complete password or through a
short read, after at most `n` candidates read; a larger budget of passes gives
the same result. -/
theorem gen_pass_terminates (symbols : List Char) (password_len W : Nat)
    (hW1 : 1 ≤ W) (hW8 : W ≤ 8) (hnw : password_len * W < SIZE_MOD) (rnd_dev : List Nat) :
    ∃ e, gen_pass_core W (rnd_dev.length + 1) rnd_dev password_len symbols = some e ∧
      (∀ fuel, rnd_dev.length + 1 ≤ fuel →
        gen_pass_core W fuel rnd_dev password_len symbols = some e) ∧
      ((∃ s, e = .returned s ∧ s.password.length = password_len) ∨ (∃ s, e = .null s)) ∧
      e.state.draws.length ≤ rnd_dev.length := by
  obtain ⟨e, he, hkind, hdraws⟩ := gen_pass_loop_terminates symbols password_len W hW1 hW8 hnw
    (rnd_dev.length + 1) (initial_state rnd_dev (bytes_for_bits ((password_len * W) % SIZE_MOD)))
    (Nat.zero_le _) (by simp [initial_state])
  refine ⟨e, he, ?_, ?_, ?_⟩
  · intro fuel hfuel
    have := gen_pass_loop_mono symbols password_len W _ (fuel - (rnd_dev.length + 1))
      (rnd_dev.length + 1) _ e he
    rw [Nat.add_sub_cancel' hfuel] at this
    exact this
  · rcases hkind with ⟨s, rfl⟩ | ⟨s, rfl⟩
    · left
      refine ⟨s, rfl, ?_⟩
      exact ((gen_pass_loop_selection symbols password_len W _ _ _ _ rfl (Nat.zero_le _)
        he).2.2 s.password rfl).2
    · exact Or.inr ⟨s, rfl⟩
  · simpa [initial_state] using hdraws

theorem gen_pass_terminates_witness :
    gen_pass_core 3 4 [224, 224, 224] 2 ['A', 'B', 'C', 'D', 'E']
        = some (.null ⟨[], 0, [0], [], [1, 1, 1, 1], [7, 7, 7]⟩) ∧
      ∃ e, gen_pass_core 3 ([224, 224, 224].length + 1) [224, 224, 224] 2
          ['A', 'B', 'C', 'D', 'E'] = some e ∧
        (∀ fuel, [224, 224, 224].length + 1 ≤ fuel →
          gen_pass_core 3 fuel [224, 224, 224] 2 ['A', 'B', 'C', 'D', 'E'] = some e) ∧
        ((∃ s, e = .returned s ∧ s.password.length = 2) ∨ (∃ s, e = .null s)) ∧
        e.state.draws.length ≤ [224, 224, 224].length :=
  ⟨by decide,
    gen_pass_terminates ['A', 'B', 'C', 'D', 'E'] 2 3 (by decide) (by decide) (by decide)
      [224, 224, 224]⟩

end Spassgen
